import Mathlib

/-!
# Verification of the Inveni file versioning core

A shallow embedding, in Lean, of the core of the Inveni repository:

* `src/core/backup_manager.py` — content-addressable backup store
  (`create_backup`, `check_backup_exists`, `get_version_content`,
  `restore_file_version`, `_clean_old_backups`, the negative cache);
* `src/core/version_manager.py` — the tracked-file index
  (`load_tracked_files`, `save_tracked_files`, `has_file_changed`);
* `src/ui/dialogs/commit_dialog.py` — `_get_last_commit`;
* `src/core/file_monitor.py` — the change detector
  (`check_for_changes`, `_handle_file_closed`, `force_reset_monitoring`).

Machine integers do not occur; Python strings are modelled as Lean
`String`/`List Char` (sequences of code points), timestamps and sizes as
`Nat`, and fallible operations return `Except`/`Option`.  Third-party
library calls that the code relies on are modelled by executable Lean
functions that satisfy the library's documented contract (gzip as an
invertible codec, SHA-256/MD5 as injective digests, `datetime.strptime`
as an executable scanner of the `%Y-%m-%d %H:%M:%S` format).
-/

namespace Inveni

/-! ## Generic list machinery

Python's `list.sort(key=…, reverse=True)` is a stable descending sort.  We
model it by a stable insertion sort: an element is inserted *before* the
first element strictly smaller than it, so equal keys keep their original
relative order, exactly as CPython's stable sort with `reverse=True`. -/

/-- Insert `x` into `l`, keeping `l`'s descending order by the strict
comparison `lt`: `x` goes before the first element it is not less than. -/
def insertBy (lt : α → α → Bool) (x : α) : List α → List α
  | [] => [x]
  | y :: ys => if lt x y then y :: insertBy lt x ys else x :: y :: ys

/-- Stable descending sort by the strict comparison `lt` (the model of
Python's `sort(key=…, reverse=True)`). -/
def sortByDesc (lt : α → α → Bool) (l : List α) : List α :=
  l.foldr (insertBy lt) []

theorem insertBy_perm (lt : α → α → Bool) (x : α) (l : List α) :
    List.Perm (insertBy lt x l) (x :: l) := by
  induction l with
  | nil => simp [insertBy]
  | cons y ys ih =>
    simp only [insertBy]
    split
    · exact ((ih.cons y).trans (List.Perm.swap x y ys))
    · exact List.Perm.refl _

theorem sortByDesc_perm (lt : α → α → Bool) (l : List α) :
    List.Perm (sortByDesc lt l) l := by
  induction l with
  | nil => simp [sortByDesc]
  | cons x xs ih =>
    simpa [sortByDesc] using (insertBy_perm lt x (sortByDesc lt xs)).trans (ih.cons x)

theorem insertBy_ne_nil (lt : α → α → Bool) (x : α) (l : List α) :
    insertBy lt x l ≠ [] := by
  cases l with
  | nil => simp [insertBy]
  | cons y ys =>
    simp only [insertBy]
    split <;> simp

/-- The head of `insertBy lt x l` is `x` (when `x` is not less than the old
head) or the old head (when it is). -/
theorem head_insertBy (lt : α → α → Bool) (x : α) (l : List α) :
    (l = [] ∧ insertBy lt x l = [x]) ∨
      (∃ h t, l = h :: t ∧
        ((lt x h = false ∧ insertBy lt x l = x :: h :: t) ∨
         (lt x h = true ∧ ∃ t', insertBy lt x l = h :: t' ∧ t' = insertBy lt x t))) := by
  cases l with
  | nil => exact Or.inl ⟨rfl, rfl⟩
  | cons y ys =>
    refine Or.inr ⟨y, ys, rfl, ?_⟩
    by_cases hxy : lt x y = true
    · exact Or.inr ⟨hxy, insertBy lt x ys, by simp [insertBy, hxy], rfl⟩
    · exact Or.inl ⟨by simpa using hxy, by simp [insertBy, hxy]⟩

/-- The head of the stable descending sort is a maximum: no element of the
list is strictly above it.  Requires `lt` to behave like a strict order:
irreflexive, asymmetric, and with transitive complement. -/
theorem sortByDesc_head_max (lt : α → α → Bool)
    (hirr : ∀ a, lt a a = false)
    (hasymm : ∀ a b, lt a b = true → lt b a = false)
    (hnegtrans : ∀ a b c, lt a b = false → lt b c = false → lt a c = false)
    (l : List α) (hne : l ≠ []) :
    ∃ h t, sortByDesc lt l = h :: t ∧ h ∈ l ∧ ∀ y ∈ l, lt h y = false := by
  induction l with
  | nil => exact absurd rfl hne
  | cons x xs ih =>
    by_cases hxs : xs = []
    · subst hxs
      exact ⟨x, [], by simp [sortByDesc, insertBy], by simp, by simp [hirr]⟩
    · obtain ⟨h, t, hsort, hmem, hmax⟩ := ih hxs
      have hstep : sortByDesc lt (x :: xs) = insertBy lt x (sortByDesc lt xs) := by
        simp [sortByDesc]
      rw [hsort] at hstep
      by_cases hxh : lt x h = true
      · -- old head stays; it dominates x by asymmetry
        refine ⟨h, insertBy lt x t, ?_, List.mem_cons_of_mem _ hmem, ?_⟩
        · rw [hstep]; simp [insertBy, hxh]
        · intro y hy
          rcases List.mem_cons.mp hy with rfl | hy'
          · exact hasymm _ _ hxh
          · exact hmax y hy'
      · -- x becomes the head; it dominates everything via ¬ lt x h
        have hxh' : lt x h = false := by simpa using hxh
        refine ⟨x, h :: t, ?_, List.mem_cons_self _ _, ?_⟩
        · rw [hstep]; simp [insertBy, hxh']
        · intro y hy
          rcases List.mem_cons.mp hy with rfl | hy'
          · exact hirr _
          · exact hnegtrans _ h y hxh' (hmax y hy')

theorem mem_sortByDesc (lt : α → α → Bool) (l : List α) (x : α) :
    x ∈ sortByDesc lt l ↔ x ∈ l :=
  (sortByDesc_perm lt l).mem_iff

/-- `find?` returns the unique element satisfying the predicate. -/
theorem find?_eq_of_unique (p : α → Bool) (l : List α) (a : α)
    (hmem : a ∈ l) (hpa : p a = true)
    (huniq : ∀ b ∈ l, p b = true → b = a) :
    l.find? p = some a := by
  induction l with
  | nil => cases hmem
  | cons x xs ih =>
    by_cases hpx : p x = true
    · have hx : x = a := huniq x (List.mem_cons_self _ _) hpx
      subst hx
      simp [List.find?_cons_of_pos _ hpx]
    · have hpx' : p x = false := by simpa using hpx
      have hxa : x ≠ a := fun h => hpx (h ▸ hpa)
      have hmem' : a ∈ xs := by
        rcases List.mem_cons.mp hmem with rfl | h
        · exact absurd rfl hxa
        · exact h
      rw [List.find?_cons_of_neg _ (by simp [hpx'])]
      exact ih hmem' (fun b hb hpb => huniq b (List.mem_cons_of_mem _ hb) hpb)

/-! ## Python string comparison

Python compares `str` values lexicographically by code point.  Timestamp
strings in the repository are compared both this way
(`commit_dialog.py:_get_last_commit`) and after `datetime.strptime`
parsing (`version_manager.py:has_file_changed`). -/

/-- Lexicographic code-point comparison of two character sequences — the
model of Python's `<` on `str`. -/
def pyStrLt : List Char → List Char → Bool
  | [], [] => false
  | [], _ :: _ => true
  | _ :: _, [] => false
  | a :: as, b :: bs =>
    if a.toNat < b.toNat then true
    else if b.toNat < a.toNat then false
    else pyStrLt as bs

theorem pyStrLt_irrefl (l : List Char) : pyStrLt l l = false := by
  induction l with
  | nil => rfl
  | cons a as ih => simp [pyStrLt, ih]

theorem pyStrLt_asymm (a b : List Char) (h : pyStrLt a b = true) :
    pyStrLt b a = false := by
  induction a generalizing b with
  | nil =>
    cases b with
    | nil => simp [pyStrLt] at h
    | cons y ys => simp [pyStrLt]
  | cons x xs ih =>
    cases b with
    | nil => simp [pyStrLt] at h
    | cons y ys =>
      simp only [pyStrLt] at h ⊢
      rcases Nat.lt_trichotomy x.toNat y.toNat with hlt | heq | hgt
      · simp [hlt, Nat.not_lt.mpr (Nat.le_of_lt hlt)]
      · simp only [heq, Nat.lt_irrefl, if_false] at h ⊢
        exact ih ys h
      · simp [hgt, Nat.not_lt.mpr (Nat.le_of_lt hgt)] at h

theorem pyStrLt_nil_right (l : List Char) : pyStrLt l [] = false := by
  cases l <;> rfl

theorem pyStrLt_trans (a b c : List Char)
    (hab : pyStrLt a b = true) (hbc : pyStrLt b c = true) :
    pyStrLt a c = true := by
  induction a generalizing b c with
  | nil =>
    cases b with
    | nil => simp [pyStrLt] at hab
    | cons y ys =>
      cases c with
      | nil => simp [pyStrLt_nil_right] at hbc
      | cons z zs => simp [pyStrLt]
  | cons x xs ih =>
    cases b with
    | nil => simp [pyStrLt_nil_right] at hab
    | cons y ys =>
      cases c with
      | nil => simp [pyStrLt_nil_right] at hbc
      | cons z zs =>
        simp only [pyStrLt] at hab hbc ⊢
        rcases Nat.lt_trichotomy x.toNat y.toNat with h1 | h1 | h1
        · rcases Nat.lt_trichotomy y.toNat z.toNat with h2 | h2 | h2
          · simp [Nat.lt_trans h1 h2]
          · simp [h2 ▸ h1]
          · rw [if_neg (Nat.not_lt.mpr (Nat.le_of_lt h2)), if_pos h2] at hbc
            cases hbc
        · rw [if_neg (by omega), if_neg (by omega)] at hab
          rcases Nat.lt_trichotomy y.toNat z.toNat with h2 | h2 | h2
          · simp [h1 ▸ h2]
          · rw [if_neg (by omega), if_neg (by omega)] at hbc
            rw [if_neg (by omega), if_neg (by omega)]
            exact ih ys zs hab hbc
          · rw [if_neg (by omega), if_pos h2] at hbc
            cases hbc
        · rw [if_neg (by omega), if_pos h1] at hab
          cases hab

/-- Transitivity of the complement (`≥` is transitive). -/
theorem pyStrLt_negtrans (a b c : List Char)
    (hab : pyStrLt a b = false) (hbc : pyStrLt b c = false) :
    pyStrLt a c = false := by
  induction a generalizing b c with
  | nil =>
    cases b with
    | nil =>
      cases c with
      | nil => rfl
      | cons z zs => simp [pyStrLt] at hbc
    | cons y ys => simp [pyStrLt] at hab
  | cons x xs ih =>
    cases b with
    | nil =>
      cases c with
      | nil => rfl
      | cons z zs => simp [pyStrLt] at hbc
    | cons y ys =>
      cases c with
      | nil => rfl
      | cons z zs =>
        simp only [pyStrLt] at hab hbc ⊢
        rcases Nat.lt_trichotomy x.toNat y.toNat with h1 | h1 | h1
        · simp [h1] at hab
        · rcases Nat.lt_trichotomy y.toNat z.toNat with h2 | h2 | h2
          · simp [h2] at hbc
          · have hxz : ¬ x.toNat < z.toNat := by rw [h1, h2]; exact Nat.lt_irrefl _
            have hzx : ¬ z.toNat < x.toNat := by rw [h1, h2]; exact Nat.lt_irrefl _
            simp only [hxz, hzx, if_false, if_neg]
            exact ih ys zs (by simpa [h1, Nat.lt_irrefl] using hab)
              (by simpa [h2, Nat.lt_irrefl] using hbc)
          · have hxz : ¬ x.toNat < z.toNat := by
              rw [h1]; exact Nat.not_lt.mpr (Nat.le_of_lt h2)
            simp [hxz, h1 ▸ h2]
        · rcases Nat.lt_trichotomy y.toNat z.toNat with h2 | h2 | h2
          · simp [h2] at hbc
          · have hzx : z.toNat < x.toNat := h2 ▸ h1
            simp [Nat.not_lt.mpr (Nat.le_of_lt hzx), hzx]
          · have hzx : z.toNat < x.toNat := Nat.lt_trans h2 h1
            simp [Nat.not_lt.mpr (Nat.le_of_lt hzx), hzx]

/-! ## Timestamps

`version_manager.py` sorts versions by
`datetime.strptime(x[1]["timestamp"], "%Y-%m-%d %H:%M:%S")` while
`commit_dialog.py` compares the raw strings.  We model a parsed timestamp
as a 6-tuple of naturals, `strptime` for this fixed format as an
executable scanner (each numeric field greedily matches 1–4 resp. 1–2
digits, as CPython's `_strptime` regex does, and the resulting values are
validated as a real calendar date-time), and `datetime` comparison as
lexicographic comparison of the tuples. -/

structure TsTuple where
  y : Nat
  mo : Nat
  dd : Nat
  hh : Nat
  mi : Nat
  ss : Nat
deriving DecidableEq, Repr

/-- `datetime` comparison: lexicographic on
(year, month, day, hour, minute, second). -/
abbrev tsProp (p q : TsTuple) : Prop :=
  p.y < q.y ∨ (p.y = q.y ∧ (p.mo < q.mo ∨ (p.mo = q.mo ∧
    (p.dd < q.dd ∨ (p.dd = q.dd ∧ (p.hh < q.hh ∨ (p.hh = q.hh ∧
      (p.mi < q.mi ∨ (p.mi = q.mi ∧ p.ss < q.ss)))))))))

/-- Boolean form of `datetime` comparison. -/
def tsLt (p q : TsTuple) : Bool := decide (tsProp p q)

theorem tsLt_true_iff (p q : TsTuple) : tsLt p q = true ↔ tsProp p q := by
  simp [tsLt]

theorem tsLt_false_iff (p q : TsTuple) : tsLt p q = false ↔ ¬ tsProp p q := by
  rw [← tsLt_true_iff]
  exact Bool.eq_false_iff

theorem tsLt_irrefl (p : TsTuple) : tsLt p p = false := by
  rw [tsLt_false_iff]
  unfold tsProp
  omega

theorem tsLt_asymm (p q : TsTuple) (h : tsLt p q = true) : tsLt q p = false := by
  rw [tsLt_true_iff] at h
  rw [tsLt_false_iff]
  unfold tsProp at h ⊢
  omega

theorem tsLt_negtrans (p q r : TsTuple)
    (hpq : tsLt p q = false) (hqr : tsLt q r = false) : tsLt p r = false := by
  rw [tsLt_false_iff] at hpq hqr ⊢
  unfold tsProp at hpq hqr ⊢
  omega

theorem tsLt_conn (p q : TsTuple)
    (hpq : tsLt p q = false) (hqp : tsLt q p = false) : p = q := by
  rw [tsLt_false_iff] at hpq hqp
  unfold tsProp at hpq hqp
  have h6 : p.y = q.y ∧ p.mo = q.mo ∧ p.dd = q.dd ∧ p.hh = q.hh ∧
      p.mi = q.mi ∧ p.ss = q.ss := by omega
  obtain ⟨h1, h2, h3, h4, h5, h6⟩ := h6
  cases p; cases q
  simp_all

def daysInMonth (y m : Nat) : Nat :=
  if m = 2 then (if (y % 4 = 0 ∧ y % 100 ≠ 0) ∨ y % 400 = 0 then 29 else 28)
  else if m = 4 ∨ m = 6 ∨ m = 9 ∨ m = 11 then 30 else 31

/-- The value ranges accepted by `datetime.strptime` for this format:
the `%m`/`%d`/`%H`/`%M`/`%S` regexes bound the fields, and the `datetime`
constructor validates the calendar date and `1 ≤ year ≤ 9999`. -/
def validDateTime (t : TsTuple) : Bool :=
  decide (1 ≤ t.y) && decide (t.y ≤ 9999) &&
  decide (1 ≤ t.mo) && decide (t.mo ≤ 12) &&
  decide (1 ≤ t.dd) && decide (t.dd ≤ daysInMonth t.y t.mo) &&
  decide (t.hh ≤ 23) && decide (t.mi ≤ 59) && decide (t.ss ≤ 59)

/-- Take at most `n` leading decimal digits (greedy, like the `\d{1,n}`
regex fragments `_strptime` compiles for numeric directives). -/
def takeDigits : Nat → List Char → List Char × List Char
  | _, [] => ([], [])
  | 0, l => ([], l)
  | n + 1, c :: cs =>
    if c.isDigit then
      let (ds, rest) := takeDigits n cs
      (c :: ds, rest)
    else ([], c :: cs)

def digitVal (c : Char) : Nat := c.toNat - 48

def natOfDigits (ds : List Char) : Nat :=
  ds.foldl (fun a c => 10 * a + digitVal c) 0

/-- Scan `%Y-%m-%d %H:%M:%S` (field widths 1–4 / 1–2, entire string must
match), without range validation. -/
def scanTs (l : List Char) : Option TsTuple :=
  let (ys, r1) := takeDigits 4 l
  if ys.isEmpty then none else
  match r1 with
  | '-' :: r2 =>
    let (ms, r3) := takeDigits 2 r2
    if ms.isEmpty then none else
    match r3 with
    | '-' :: r4 =>
      let (ds, r5) := takeDigits 2 r4
      if ds.isEmpty then none else
      match r5 with
      | ' ' :: r6 =>
        let (hs, r7) := takeDigits 2 r6
        if hs.isEmpty then none else
        match r7 with
        | ':' :: r8 =>
          let (ns, r9) := takeDigits 2 r8
          if ns.isEmpty then none else
          match r9 with
          | ':' :: r10 =>
            let (ss, r11) := takeDigits 2 r10
            if ss.isEmpty then none else
            if r11.isEmpty then
              some ⟨natOfDigits ys, natOfDigits ms, natOfDigits ds,
                    natOfDigits hs, natOfDigits ns, natOfDigits ss⟩
            else none
          | _ => none
        | _ => none
      | _ => none
    | _ => none
  | _ => none

/-- Model of `datetime.strptime(s, "%Y-%m-%d %H:%M:%S")`: `some` parsed
tuple, or `none` when the call would raise `ValueError`. -/
def parseTimestamp (s : String) : Option TsTuple :=
  (scanTs s.data).bind (fun t => if validDateTime t then some t else none)

theorem parseTimestamp_valid {s : String} {t : TsTuple}
    (h : parseTimestamp s = some t) : validDateTime t = true := by
  unfold parseTimestamp at h
  cases hs : scanTs s.data with
  | none => rw [hs] at h; cases h
  | some t' =>
    rw [hs] at h
    simp only [Option.some_bind] at h
    by_cases hv : validDateTime t' = true
    · rw [if_pos hv] at h
      cases h
      exact hv
    · rw [if_neg (by simpa using hv)] at h
      cases h

/-! Canonical rendering: the fixed-width, zero-padded
`YYYY-MM-DD HH:MM:SS` form that the repository writes
(`utils/time_utils.py` uses `strftime("%Y-%m-%d %H:%M:%S")`). -/

def digitChar : Nat → Char
  | 0 => '0' | 1 => '1' | 2 => '2' | 3 => '3' | 4 => '4'
  | 5 => '5' | 6 => '6' | 7 => '7' | 8 => '8' | _ => '9'

/-- Two-digit zero-padded rendering. -/
def two (n : Nat) : List Char := [digitChar (n / 10 % 10), digitChar (n % 10)]

/-- Four-digit zero-padded rendering. -/
def four (n : Nat) : List Char :=
  [digitChar (n / 1000 % 10), digitChar (n / 100 % 10),
   digitChar (n / 10 % 10), digitChar (n % 10)]

def renderTsChars (t : TsTuple) : List Char :=
  four t.y ++ '-' :: (two t.mo ++ '-' :: (two t.dd ++ ' ' ::
    (two t.hh ++ ':' :: (two t.mi ++ ':' :: two t.ss))))

def renderTs (t : TsTuple) : String := String.mk (renderTsChars t)

/-- A timestamp string is canonical when it parses and equals the
fixed-width re-rendering of its value. -/
def isCanonicalTs (s : String) : Bool :=
  match parseTimestamp s with
  | some t => renderTs t == s
  | none => false

theorem isCanonicalTs_iff {s : String} :
    isCanonicalTs s = true ↔
      ∃ t, parseTimestamp s = some t ∧ renderTs t = s := by
  unfold isCanonicalTs
  cases hp : parseTimestamp s with
  | none => simp
  | some t => simp [beq_iff_eq]

theorem digitChar_toNat (d : Nat) (hd : d < 10) :
    (digitChar d).toNat = 48 + d := by
  interval_cases d <;> rfl

theorem digitChar_lt_iff (a b : Nat) (ha : a < 10) (hb : b < 10) :
    ((digitChar a).toNat < (digitChar b).toNat ↔ a < b) := by
  rw [digitChar_toNat a ha, digitChar_toNat b hb]
  omega

theorem pyStrLt_cons (a b : Char) (as bs : List Char) :
    pyStrLt (a :: as) (b :: bs) =
      (if a.toNat < b.toNat then true
       else if b.toNat < a.toNat then false
       else pyStrLt as bs) := rfl

theorem pyStrLt_cons_same (c : Char) (as bs : List Char) :
    pyStrLt (c :: as) (c :: bs) = pyStrLt as bs := by
  simp [pyStrLt_cons]

theorem pyStrLt_digit (x u : Nat) (hx : x < 10) (hu : u < 10)
    (as bs : List Char) :
    pyStrLt (digitChar x :: as) (digitChar u :: bs) =
      (if x < u then true else if u < x then false else pyStrLt as bs) := by
  rw [pyStrLt_cons]
  by_cases h1 : x < u
  · simp [h1, (digitChar_lt_iff x u hx hu).mpr h1]
  · have h1' : ¬ (digitChar x).toNat < (digitChar u).toNat := fun hc =>
      h1 ((digitChar_lt_iff x u hx hu).mp hc)
    by_cases h2 : u < x
    · simp [h1, h2, h1', (digitChar_lt_iff u x hu hx).mpr h2]
    · have h2' : ¬ (digitChar u).toNat < (digitChar x).toNat := fun hc =>
        h2 ((digitChar_lt_iff u x hu hx).mp hc)
      simp [h1, h2, h1', h2']

theorem pyStrLt_two (m n : Nat) (hm : m < 100) (hn : n < 100)
    (as bs : List Char) :
    pyStrLt (two m ++ as) (two n ++ bs) =
      (if m < n then true else if n < m then false else pyStrLt as bs) := by
  simp only [two, List.cons_append, List.nil_append]
  rw [pyStrLt_digit _ _ (by omega) (by omega),
      pyStrLt_digit _ _ (by omega) (by omega)]
  split_ifs <;> first | rfl | (exfalso; omega)

theorem pyStrLt_four (m n : Nat) (hm : m < 10000) (hn : n < 10000)
    (as bs : List Char) :
    pyStrLt (four m ++ as) (four n ++ bs) =
      (if m < n then true else if n < m then false else pyStrLt as bs) := by
  simp only [four, List.cons_append, List.nil_append]
  rw [pyStrLt_digit _ _ (by omega) (by omega),
      pyStrLt_digit _ _ (by omega) (by omega),
      pyStrLt_digit _ _ (by omega) (by omega),
      pyStrLt_digit _ _ (by omega) (by omega)]
  split_ifs <;> first | rfl | (exfalso; omega)

theorem validDateTime_bounds {t : TsTuple} (h : validDateTime t = true) :
    t.y < 10000 ∧ t.mo < 100 ∧ t.dd < 100 ∧ t.hh < 100 ∧
      t.mi < 100 ∧ t.ss < 100 := by
  simp only [validDateTime, Bool.and_eq_true, decide_eq_true_eq] at h
  have hd : daysInMonth t.y t.mo ≤ 31 := by
    unfold daysInMonth
    split_ifs <;> omega
  omega

/-- Three-way comparison step: strictly-less gives `true`, strictly-greater
gives `false`, ties continue with `k`. -/
def cmp3 (a b : Nat) (k : Bool) : Bool :=
  if a < b then true else if b < a then false else k

theorem cmp3_decide_last (a b : Nat) (k : Bool) (hk : k = false) :
    cmp3 a b k = decide (a < b) := by
  unfold cmp3
  subst hk
  by_cases h1 : a < b
  · simp [h1]
  · by_cases h2 : b < a <;> simp [h1, h2]

theorem cmp3_decide_step (a b : Nat) (k : Bool) (P : Prop) [Decidable P]
    (hk : k = decide P) :
    cmp3 a b k = decide (a < b ∨ (a = b ∧ P)) := by
  unfold cmp3
  subst hk
  by_cases h1 : a < b
  · simp [h1]
  · by_cases h2 : b < a
    · simp only [if_neg h1, if_pos h2]
      refine Eq.symm (decide_eq_false ?_)
      rintro (hc | ⟨hc, -⟩) <;> omega
    · have hab : a = b := by omega
      by_cases hp : P <;> simp [h1, h2, hab, hp]

set_option maxHeartbeats 1000000 in
/-- Key fact: on canonically rendered timestamps, Python string comparison
agrees with parsed `datetime` comparison. -/
theorem pyStrLt_renderTs (ta tb : TsTuple)
    (hva : validDateTime ta = true) (hvb : validDateTime tb = true) :
    pyStrLt (renderTsChars ta) (renderTsChars tb) = tsLt ta tb := by
  obtain ⟨hy1, hm1, hd1, hh1, hi1, hs1⟩ := validDateTime_bounds hva
  obtain ⟨hy2, hm2, hd2, hh2, hi2, hs2⟩ := validDateTime_bounds hvb
  have hlast := pyStrLt_two ta.ss tb.ss hs1 hs2 [] []
  rw [List.append_nil, List.append_nil] at hlast
  unfold renderTsChars
  rw [pyStrLt_four _ _ hy1 hy2, pyStrLt_cons_same, pyStrLt_two _ _ hm1 hm2,
      pyStrLt_cons_same, pyStrLt_two _ _ hd1 hd2, pyStrLt_cons_same,
      pyStrLt_two _ _ hh1 hh2, pyStrLt_cons_same, pyStrLt_two _ _ hi1 hi2,
      pyStrLt_cons_same, hlast]
  have h1 : cmp3 ta.ss tb.ss (pyStrLt [] []) = decide (ta.ss < tb.ss) :=
    cmp3_decide_last _ _ _ rfl
  have h2 := cmp3_decide_step ta.mi tb.mi _ _ h1
  have h3 := cmp3_decide_step ta.hh tb.hh _ _ h2
  have h4 := cmp3_decide_step ta.dd tb.dd _ _ h3
  have h5 := cmp3_decide_step ta.mo tb.mo _ _ h4
  have h6 := cmp3_decide_step ta.y tb.y _ _ h5
  exact h6

/-- Canonical strings with equal parsed values are equal. -/
theorem canonical_inj {a b : String} {ta tb : TsTuple}
    (hra : renderTs ta = a) (hrb : renderTs tb = b)
    (heq : ta = tb) : a = b := by
  subst heq
  rw [← hra, ← hrb]

/-! ## TrackedFileIndex — `core/version_manager.py` and the commit dialog

`VersionInfo` models one value of the per-hash version dictionary (the
fields the comparison code paths read).  A version map is an
insertion-ordered association list, as a CPython `dict` is. -/

structure VersionInfo where
  timestamp : String
  commit_message : String
deriving DecidableEq, Repr

/-- `{"versions": {hash: info, …}}` for one file, insertion-ordered. -/
abbrev Versions := List (String × VersionInfo)

/-- The persisted index: normalized path → version map. -/
abbrev TrackedFiles := List (String × Versions)

def lookupTracked (tracked : TrackedFiles) (path : String) : Option Versions :=
  (tracked.find? (fun e => e.1 == path)).map (·.2)

/-- Computing the `strptime` sort key for every item, as
`sorted(versions.items(), key=…)` does; `none` models the `ValueError`
raised on the first unparseable timestamp. -/
def keyVersions : Versions → Option (List (TsTuple × (String × VersionInfo)))
  | [] => some []
  | v :: rest =>
    (parseTimestamp v.2.timestamp).bind fun t =>
      (keyVersions rest).map fun ks => (t, v) :: ks

/-- The selection made by `version_manager.py:has_file_changed`:
`sorted(versions.items(), key=lambda x: strptime(x[1]["timestamp"]),
reverse=True)[0]` — the first element of the stable descending sort by
parsed timestamp; `none` when the map is empty or `strptime` raises. -/
def latestVersionByParsed (versions : Versions) : Option (String × VersionInfo) :=
  (keyVersions versions).bind fun keyed =>
    ((sortByDesc (fun a b => tsLt a.1 b.1) keyed).head?).map (·.2)

/-- One iteration of the `for version_hash, info in versions.items()` loop
of `commit_dialog.py:_get_last_commit`: the running `(latest_timestamp,
latest_version)` pair is replaced when `not latest_timestamp or timestamp
> latest_timestamp` (an empty running timestamp is falsy; `>` is raw
string comparison). -/
def lastCommitStep (acc : Option (String × VersionInfo)) (v : String × VersionInfo) :
    Option (String × VersionInfo) :=
  match acc with
  | none => some (v.2.timestamp, v.2)
  | some (lts, li) =>
    if lts = "" ∨ pyStrLt lts.data v.2.timestamp.data = true then
      some (v.2.timestamp, v.2)
    else some (lts, li)

/-- The `(latest_timestamp, latest_version)` pair computed by
`commit_dialog.py:_get_last_commit` over one version map. -/
def getLastCommitSel (versions : Versions) : Option (String × VersionInfo) :=
  versions.foldl lastCommitStep none

/-- `_get_last_commit` itself: `None` when the file is untracked or has no
versions, otherwise the selected version's commit message. -/
def get_last_commit (tracked : TrackedFiles) (path : String) : Option String :=
  match lookupTracked tracked path with
  | none => none
  | some versions =>
    match getLastCommitSel versions with
    | none => none
    | some (_, info) => some info.commit_message

/-- `version_manager.py:has_file_changed`, given the already-computed
current content hash.  `Except.error ()` models the re-raised exception
when a stored timestamp fails to parse. -/
def has_file_changed (currentHash : String) (path : String)
    (tracked : TrackedFiles) : Except Unit (Bool × String × String) :=
  match lookupTracked tracked path with
  | none => .ok (true, currentHash, "")
  | some versions =>
    if versions.isEmpty then .ok (true, currentHash, "")
    else
      match latestVersionByParsed versions with
      | none => .error ()
      | some (lastHash, _) => .ok (currentHash ≠ lastHash, currentHash, lastHash)

theorem keyVersions_spec (versions : Versions)
    (ks : List (TsTuple × (String × VersionInfo)))
    (h : keyVersions versions = some ks) :
    ks.map (·.2) = versions ∧
      ∀ kv ∈ ks, parseTimestamp kv.2.2.timestamp = some kv.1 := by
  induction versions generalizing ks with
  | nil =>
    cases h
    simp
  | cons v rest ih =>
    unfold keyVersions at h
    cases hp : parseTimestamp v.2.timestamp with
    | none => rw [hp] at h; cases h
    | some t =>
      rw [hp, Option.some_bind] at h
      cases hr : keyVersions rest with
      | none => rw [hr] at h; cases h
      | some ks' =>
        rw [hr, Option.map_some'] at h
        cases h
        obtain ⟨hmap, hall⟩ := ih ks' hr
        refine ⟨by simp [hmap], ?_⟩
        intro kv hkv
        rcases List.mem_cons.mp hkv with rfl | hkv'
        · exact hp
        · exact hall kv hkv'

theorem keyVersions_isSome_of_canonical (versions : Versions)
    (h : ∀ v ∈ versions, isCanonicalTs v.2.timestamp = true) :
    ∃ ks, keyVersions versions = some ks := by
  induction versions with
  | nil => exact ⟨[], rfl⟩
  | cons v rest ih =>
    obtain ⟨t, hp, -⟩ := isCanonicalTs_iff.mp (h v (List.mem_cons_self _ _))
    obtain ⟨ks, hks⟩ := ih (fun u hu => h u (List.mem_cons_of_mem _ hu))
    exact ⟨(t, v) :: ks, by simp [keyVersions, hp, hks]⟩

/-- Invariant of the `_get_last_commit` fold: it produces a pair whose
timestamp is string-maximal among the processed items and the seed. -/
theorem foldl_lastCommit (l : Versions) (t0 : String) (i0 : VersionInfo) :
    ∃ t i, l.foldl lastCommitStep (some (t0, i0)) = some (t, i) ∧
      ((t = t0 ∧ i = i0) ∨ ∃ v ∈ l, t = v.2.timestamp ∧ i = v.2) ∧
      pyStrLt t.data t0.data = false ∧
      ∀ v ∈ l, pyStrLt t.data v.2.timestamp.data = false := by
  induction l generalizing t0 i0 with
  | nil =>
    exact ⟨t0, i0, rfl, Or.inl ⟨rfl, rfl⟩, pyStrLt_irrefl _, by simp⟩
  | cons v rest ih =>
    by_cases hupd : t0 = "" ∨ pyStrLt t0.data v.2.timestamp.data = true
    · -- the running pair is replaced by `v`
      have hstep : (v :: rest).foldl lastCommitStep (some (t0, i0)) =
          rest.foldl lastCommitStep (some (v.2.timestamp, v.2)) := by
        simp [List.foldl_cons, lastCommitStep, hupd]
      obtain ⟨t, i, hfold, hsrc, hge, hmax⟩ := ih v.2.timestamp v.2
      refine ⟨t, i, hstep ▸ hfold, ?_, ?_, ?_⟩
      · rcases hsrc with ⟨rfl, rfl⟩ | ⟨u, hu, rfl, rfl⟩
        · exact Or.inr ⟨v, List.mem_cons_self _ _, rfl, rfl⟩
        · exact Or.inr ⟨u, List.mem_cons_of_mem _ hu, rfl, rfl⟩
      · -- t ≥ t0
        rcases hupd with h0 | hlt
        · subst h0
          exact pyStrLt_nil_right _
        · -- t ≥ v.ts > t0
          by_cases hc : pyStrLt t.data t0.data = true
          · exact absurd (by
              have := pyStrLt_trans _ _ _ hc hlt
              exact this) (by simp [hge])
          · simpa using hc
      · intro u hu
        rcases List.mem_cons.mp hu with rfl | hu'
        · exact hge
        · exact hmax u hu'
    · -- the running pair is kept
      have hkeep : ¬ (t0 = "" ∨ pyStrLt t0.data v.2.timestamp.data = true) := hupd
      have hstep : (v :: rest).foldl lastCommitStep (some (t0, i0)) =
          rest.foldl lastCommitStep (some (t0, i0)) := by
        simp [List.foldl_cons, lastCommitStep, hkeep]
      obtain ⟨t, i, hfold, hsrc, hge, hmax⟩ := ih t0 i0
      have hnv : pyStrLt t0.data v.2.timestamp.data = false := by
        by_cases h : pyStrLt t0.data v.2.timestamp.data = true
        · exact absurd (Or.inr h) hkeep
        · simpa using h
      refine ⟨t, i, hstep ▸ hfold, ?_, hge, ?_⟩
      · rcases hsrc with h | ⟨u, hu, rfl, rfl⟩
        · exact Or.inl h
        · exact Or.inr ⟨u, List.mem_cons_of_mem _ hu, rfl, rfl⟩
      · intro u hu
        rcases List.mem_cons.mp hu with rfl | hu'
        · exact pyStrLt_negtrans _ _ _ hge hnv
        · exact hmax u hu'

/-! ## Index persistence — `load_tracked_files` / `save_tracked_files`

The state of `tracked_files.json` on disk: missing, holding bytes that are
not valid JSON, or holding a valid serialized index.  `json.load` either
raises (`FileNotFoundError` from `open`, `JSONDecodeError` from parsing)
or returns the stored value; that case split is the embedding below. -/

inductive PersistedFile where
  | missing
  | corrupt (raw : String)
  | stored (idx : TrackedFiles)
deriving DecidableEq

inductive PyExc where
  | fileNotFound
  | jsonDecode
  | other (msg : String)
deriving DecidableEq, Repr

/-- The raw body of `load_tracked_files`: `open(...)` + `json.load(...)`. -/
def readIndexFile : PersistedFile → Except PyExc TrackedFiles
  | .missing => .error .fileNotFound
  | .corrupt _ => .error .jsonDecode
  | .stored idx => .ok idx

/-- `version_manager.py:load_tracked_files` with its two `except` arms.
The second component collects `_log_error` messages. -/
def load_tracked_files (f : PersistedFile) :
    Except PyExc (TrackedFiles × List String) :=
  match readIndexFile f with
  | .ok idx => .ok (idx, [])
  | .error .fileNotFound => .ok ([], [])
  | .error .jsonDecode => .ok ([], ["Error: tracked_files.json is corrupted."])
  | .error e => .error e

set_option linter.unusedVariables false in
/-- `version_manager.py:save_tracked_files`: `open(path, "w")` truncates the
file in place, then `json.dump` writes the serialized index.  `writeFails`
models `json.dump` (or the underlying write) raising after the truncation
— e.g. a non-serializable value or a full disk; the `except` arm logs and
re-raises.  There is no temp-file-and-rename step: on failure the
previous content is already destroyed. -/
def save_tracked_files (idx : TrackedFiles) (prev : PersistedFile)
    (writeFails : Bool) : Except PyExc Unit × PersistedFile :=
  if writeFails then (.error (.other "Failed to save tracked files"), .corrupt "")
  else (.ok (), .stored idx)

/-! ## ContentAddressableStore — `core/backup_manager.py`

File contents are byte sequences (`List Nat`).  gzip is modelled as an
executable invertible codec (length-prefixing); the only property of the
real library the code relies on is that `gzip.open(..,'wb')` followed by
`gzip.open(..,'rb').read()` returns the original bytes. -/

/-- Model of gzip compression (any lossless codec; here length-prefixed). -/
def gzipCompress (b : List Nat) : List Nat := b.length :: b

/-- Model of gzip decompression, the exact inverse of `gzipCompress`. -/
def gzipDecompress (c : List Nat) : List Nat := c.drop 1

theorem gzip_roundtrip (b : List Nat) : gzipDecompress (gzipCompress b) = b := rfl

/-- A normalized file path, split as `os.path.dirname`/`os.path.basename`. -/
structure FPath where
  dir : String
  base : String
deriving DecidableEq

def pathStr (p : FPath) : String := p.dir ++ "/" ++ p.base

/-- A blob directory under `<backup_folder>/versions/`: the primary layout
`f"{md5(dir)[:8]}_{basename}"` or the legacy layout `f"{basename}"`. -/
inductive BlobDir where
  | primary (dirDigest : String) (base : String)
  | legacy (base : String)
deriving DecidableEq

/-- Model of `hashlib.md5(file_dir.encode()).hexdigest()[:8]` — a
deterministic digest of the directory name (the code needs determinism,
not any cryptographic property). -/
def dirDigest8 (dir : String) : String := dir

def primaryDirOf (p : FPath) : BlobDir := .primary (dirDigest8 p.dir) p.base

def legacyDirOf (p : FPath) : BlobDir := .legacy p.base

/-- One `<hash>.gz` file on disk. -/
structure Blob where
  dir : BlobDir
  hash : String
  mtime : Nat
  content : List Nat
deriving DecidableEq

/-- `BackupManager` state: the blob files under `versions/` plus the
`_known_missing_backups` negative cache (keys are the
`f"{normalized_path}|{file_hash}"` strings, as code-point sequences). -/
structure BM where
  blobs : List Blob
  missingCache : List (List Char)
deriving DecidableEq

def emptyBM : BM := { blobs := [], missingCache := [] }

/-- `_get_cache_key`: `f"{normalized_path}|{file_hash}"`. -/
def cacheKey (p : FPath) (h : String) : List Char :=
  (pathStr p).data ++ '|' :: h.data

/-- The `f"{normalized_path}|"` stem used by the prefix scan of
`_clear_missing_cache_for_file`. -/
def cacheKeyStem (p : FPath) : List Char := (pathStr p).data ++ ['|']

/-- `key.startswith(stem)` on code-point sequences. -/
def keyHasStem (stem key : List Char) : Bool := stem.isPrefixOf key

/-- `_clear_missing_cache_for_file`: drop every cache key that starts with
`f"{normalized_path}|"`. -/
def clear_missing_cache_for_file (bm : BM) (p : FPath) : BM :=
  { bm with missingCache :=
      bm.missingCache.filter (fun k => ¬ keyHasStem (cacheKeyStem p) k) }

def hasBlobAt (bm : BM) (d : BlobDir) (h : String) : Bool :=
  bm.blobs.any (fun b => decide (b.dir = d ∧ b.hash = h))

/-- `check_backup_exists`: consult the negative cache, then the primary
layout, then the legacy layout; remember misses. -/
def check_backup_exists (bm : BM) (p : FPath) (h : String) : Bool × BM :=
  if cacheKey p h ∈ bm.missingCache then (false, bm)
  else
    let ex1 := hasBlobAt bm (primaryDirOf p) h
    let ex := if ex1 then true else hasBlobAt bm (legacyDirOf p) h
    if ex then (true, bm)
    else (false, { bm with missingCache := cacheKey p h :: bm.missingCache })

/-- Writing the compressed blob at the primary location (`gzip.open(...,
'wb')` truncates any existing file of the same name). -/
def writeBlob (bm : BM) (p : FPath) (h : String) (content : List Nat)
    (now : Nat) : BM :=
  { bm with blobs :=
      (bm.blobs.filter (fun b => ¬ (b.dir = primaryDirOf p ∧ b.hash = h))) ++
        [{ dir := primaryDirOf p, hash := h, mtime := now,
           content := gzipCompress content }] }

/-- Comparison used by `_get_all_backup_files`'s
`sort(key=lambda x: x['mtime'], reverse=True)`. -/
def blobMtimeLt (a b : Blob) : Bool := decide (a.mtime < b.mtime)

/-- `_get_all_backup_files`: the `.gz` entries of the file's primary
version directory, newest first. -/
def get_all_backup_files (bm : BM) (p : FPath) : List Blob :=
  sortByDesc blobMtimeLt (bm.blobs.filter (fun b => decide (b.dir = primaryDirOf p)))

/-- Removing the deleted hashes from `tracked_files[path]["versions"]`. -/
def removeVersions (tracked : TrackedFiles) (key : String) (hs : List String) :
    TrackedFiles :=
  tracked.map (fun e =>
    if e.1 = key then (e.1, e.2.filter (fun v => ¬ v.1 ∈ hs)) else e)

/-- The blobs `_clean_old_backups` deletes: everything beyond the newest
`maxBackups` in the sorted listing. -/
def backupsToDelete (bm : BM) (p : FPath) (maxBackups : Nat) : List Blob :=
  (get_all_backup_files bm p).drop maxBackups

/-- `_clean_old_backups`: keep the newest `maxBackups` blobs of the file's
primary directory, delete the rest, record each deleted pair in the
negative cache, and drop the corresponding version records. -/
def clean_old_backups (bm : BM) (p : FPath) (maxBackups : Nat)
    (tracked : TrackedFiles) : BM × TrackedFiles :=
  if (get_all_backup_files bm p).length > maxBackups then
    ({ bm with
        blobs := bm.blobs.filter (fun b => ¬ b ∈ backupsToDelete bm p maxBackups),
        missingCache :=
          ((backupsToDelete bm p maxBackups).map (fun b => cacheKey p b.hash)) ++
            bm.missingCache },
      removeVersions tracked (pathStr p)
        ((backupsToDelete bm p maxBackups).map (·.hash)))
  else (bm, tracked)

/-- `create_backup`: clear the file's negative-cache entries, compress the
current content into the deterministic blob location, then enforce
retention.  `tracked` is the index loaded from the version manager; `now`
is the new blob's modification time. -/
def create_backup (bm : BM) (p : FPath) (h : String) (content : List Nat)
    (tracked : TrackedFiles) (maxBackups : Nat) (now : Nat) :
    BM × TrackedFiles :=
  let bm1 := clear_missing_cache_for_file bm p
  let bm2 := writeBlob bm1 p h content now
  clean_old_backups bm2 p maxBackups tracked

inductive RErr where
  | notFound
  | permission
  | ioError
deriving DecidableEq, Repr

/-- `get_version_content`: `check_backup_exists`, then
`gzip.open(primary_path, 'rb').read()` — which raises when the blob is
only present at the legacy location. -/
def get_version_content (bm : BM) (p : FPath) (h : String) :
    Except RErr (List Nat) × BM :=
  let ex := check_backup_exists bm p h
  if ex.1 then
    match ex.2.blobs.find?
        (fun b => decide (b.dir = primaryDirOf p ∧ b.hash = h)) with
    | some b => (.ok (gzipDecompress b.content), ex.2)
    | none => (.error .ioError, ex.2)
  else (.error .notFound, ex.2)

/-! ### Restoring — `restore_file_version` / `_restore_office_document` -/

/-- `os.path.splitext(...)[1]` on a basename: the suffix from the last
dot, unless every character before that dot is itself a dot (so `.bashrc`
has no extension). `seenNonDot` records whether a non-dot character has
been passed. -/
def lastDotExt (seenNonDot : Bool) (acc : Option (List Char)) :
    List Char → Option (List Char)
  | [] => acc
  | c :: rest =>
    if c = '.' then
      if seenNonDot then lastDotExt seenNonDot (some (c :: rest)) rest
      else lastDotExt seenNonDot acc rest
    else lastDotExt true acc rest

def splitextExt (s : String) : String :=
  match lastDotExt false none s.data with
  | some ext => String.mk ext
  | none => ""

/-- The extensions given the special Office-document restore path. -/
def officeExts : List String := [".doc", ".docx", ".xls", ".xlsx", ".ppt", ".pptx"]

/-- ASCII lower-casing of one character (`str.lower()` on the extension
alphabet the code compares against). -/
def lowerChar (c : Char) : Char :=
  if 65 ≤ c.toNat ∧ c.toNat ≤ 90 then Char.ofNat (c.toNat + 32) else c

def strLower (s : String) : String := String.mk (s.data.map lowerChar)

def isOfficeDoc (p : FPath) : Bool :=
  strLower (splitextExt p.base) ∈ officeExts

/-- The environment a restore runs in: state of the target file and the
failure points of the individual OS calls. -/
structure RestoreEnv where
  /-- `os.path.exists(target)` -/
  targetExists : Bool
  /-- the target cannot be opened for writing (`open(...,'wb')` /
  `open(...,'a')` raises `PermissionError`) -/
  targetLocked : Bool
  /-- `platform.system() == 'Windows'` -/
  isWindows : Bool
  /-- `os.unlink(target)` fails (swallowed by the bare `except`) -/
  unlinkFails : Bool
  /-- the `copyfileobj` decompression into the temp/target file raises -/
  decompressFails : Bool
deriving DecidableEq, Repr

instance : DecidableEq (Except RErr Unit) := fun a b =>
  match a, b with
  | .ok (), .ok () => isTrue rfl
  | .error x, .error y =>
    if h : x = y then isTrue (by rw [h])
    else isFalse (by intro hc; cases hc; exact h rfl)
  | .ok _, .error _ => isFalse (by intro hc; cases hc)
  | .error _, .ok _ => isFalse (by intro hc; cases hc)

/-- The observable outcome of a restore: the result, the bytes the target
file was overwritten with (`none` = target unchanged), and whether the
office `temp_<basename>` sibling file is left behind. -/
structure RestoreOutcome where
  result : Except RErr Unit
  targetContent : Option (List Nat)
  officeTempLeft : Bool
deriving DecidableEq, Repr

/-- The `try` body of `_restore_office_document`, before its `except`
handler runs: mid-failure branches leave the `temp_<basename>` file
behind for the handler to clean up. -/
def restore_office_attempt (blobC : Option (List Nat)) (env : RestoreEnv) :
    RestoreOutcome :=
  if env.targetExists ∧ env.targetLocked then
    -- `_can_write_to_file` fails: PermissionError raised before the temp
    -- file is created
    { result := .error .permission, targetContent := none, officeTempLeft := false }
  else
    match blobC with
    | none =>
      -- `gzip.open(backup_path, 'rb')` raises before `open(temp_file,'wb')`
      { result := .error .ioError, targetContent := none, officeTempLeft := false }
    | some content =>
      if env.decompressFails then
        -- the temp file was created and partially written
        { result := .error .ioError, targetContent := none, officeTempLeft := true }
      else if env.targetExists then
        if env.isWindows then
          if env.unlinkFails then
            -- unlink failure swallowed; `os.rename` onto the surviving
            -- target raises; the temp file is still there
            { result := .error .ioError, targetContent := none, officeTempLeft := true }
          else
            { result := .ok (), targetContent := some content, officeTempLeft := false }
        else
          -- `os.replace(temp, target)`
          { result := .ok (), targetContent := some content, officeTempLeft := false }
      else
        -- target absent: `os.rename(temp, target)`
        { result := .ok (), targetContent := some content, officeTempLeft := false }

/-- The `except` handler of `_restore_office_document`: on any exception,
remove the temp file if it exists, then re-raise. -/
def restore_office_document (blobC : Option (List Nat)) (env : RestoreEnv) :
    RestoreOutcome :=
  let o := restore_office_attempt blobC env
  match o.result with
  | .error _ => { o with officeTempLeft := false }
  | .ok _ => o

/-- `restore_file_version`: existence check (with the negative cache),
then either the Office-document path or a plain
`gzip.open(backup, 'rb')` → `open(target, 'wb')` copy.  The `except
PermissionError` arm re-raises the distinguishable permission error. -/
def restore_file_version (bm : BM) (p : FPath) (h : String)
    (env : RestoreEnv) : RestoreOutcome × BM :=
  let ex := check_backup_exists bm p h
  if ex.1 then
    let blobC := (ex.2.blobs.find?
        (fun b => decide (b.dir = primaryDirOf p ∧ b.hash = h))).map
      (fun b => gzipDecompress b.content)
    if isOfficeDoc p then
      (restore_office_document blobC env, ex.2)
    else
      match blobC with
      | none =>
        -- `gzip.open(backup_path, 'rb')` raises: blob only at the legacy
        -- location
        (⟨.error .ioError, none, false⟩, ex.2)
      | some content =>
        if env.targetLocked then
          (⟨.error .permission, none, false⟩, ex.2)
        else if env.decompressFails then
          (⟨.error .ioError, none, false⟩, ex.2)
        else
          (⟨.ok (), some content, false⟩, ex.2)
  else (⟨.error .notFound, none, false⟩, ex.2)

/-! ## ChangeDetector — `core/file_monitor.py`

The per-path slice of the monitor's state, and the per-path body of one
`check_for_changes` pass.  Content hashes are modelled as the content
itself (SHA-256 is injective on the inputs that occur). -/

/-- Model of `utils/file_utils.py:calculate_file_hash` (SHA-256 digest,
injective). -/
def calculate_file_hash (content : List Nat) : List Nat := content

/-- One entry of `watched_files`. -/
structure WatchEntry where
  hash : List Nat
  mtime : Nat
  size : Nat
  isOpen : Bool
  lastCheck : Nat
deriving DecidableEq, Repr

/-- What one poll tick observes about the file on disk: presence, stat
data, content, and the result of the `_is_file_closed` heuristic. -/
structure FileObs where
  present : Bool
  mtime : Nat
  size : Nat
  content : List Nat
  closedProbe : Bool
deriving DecidableEq, Repr

inductive MEvent where
  /-- `self.callback(file_path, True)` -/
  | changeCallback
  /-- `self._show_commit_dialog(path)` -/
  | commitDialog
deriving DecidableEq, Repr

/-- The monitor's per-path state: the watch entry, the `restoring_files`
flag, membership in `tracked_files`, the last commit-dialog time and the
`files_with_changes` flag. -/
structure MonState where
  entry : Option WatchEntry
  restoring : Bool
  isTracked : Bool
  lastDialogTime : Nat
  pendingChange : Bool
deriving DecidableEq, Repr

/-- `self.dialog_cooldown = 2.0` seconds. -/
def dialogCooldown : Nat := 2

/-- `_handle_file_closed`: always adopt the new hash/stat data; then
either swallow the event (restoring) or show the commit dialog (tracked
and past the cooldown). -/
def handle_file_closed (st : MonState) (obs : FileObs) (now : Nat) :
    MonState × List MEvent :=
  let fi0 : WatchEntry := st.entry.getD ⟨[], 0, 0, false, 0⟩
  let fi : WatchEntry :=
    { fi0 with
        hash := calculate_file_hash obs.content,
        mtime := if obs.present then obs.mtime else 0,
        size := if obs.present then obs.size else 0,
        isOpen := false,
        lastCheck := now }
  let st1 := { st with entry := some fi }
  if st1.restoring then
    ({ st1 with restoring := false }, [])
  else if st1.isTracked ∧ now - st1.lastDialogTime > dialogCooldown then
    ({ st1 with lastDialogTime := now }, [MEvent.commitDialog])
  else (st1, [])

/-- The body of `check_for_changes` for one watched path. -/
def check_for_changes_step (st : MonState) (obs : FileObs) (now : Nat) :
    MonState × List MEvent :=
  match st.entry with
  | none => (st, [])
  | some fi =>
    if ¬ obs.present then
      -- `_cleanup_file`
      ({ st with entry := none, pendingChange := false }, [])
    else if obs.size ≠ fi.size then
      -- being written to: mark open, update size, `continue`
      ({ st with entry := some { fi with size := obs.size, isOpen := true } }, [])
    else if obs.mtime ≠ fi.mtime then
      let currentHash := calculate_file_hash obs.content
      let hasChanged := currentHash ≠ fi.hash
      let wasOpen := fi.isOpen
      let isClosed := obs.closedProbe
      let handled :=
        if wasOpen = true ∧ isClosed = true ∧ hasChanged then
          handle_file_closed st obs now
        else (st, [])
      let st1 := handled.1
      let fi1 : WatchEntry := st1.entry.getD fi
      let fi2 : WatchEntry :=
        { fi1 with hash := currentHash, mtime := obs.mtime, isOpen := ¬ isClosed }
      let st2 := { st1 with entry := some fi2 }
      let fired :=
        if hasChanged then
          ({ st2 with pendingChange := true }, [MEvent.changeCallback])
        else (st2, [])
      let st3 := fired.1
      ({ st3 with entry := some { fi2 with lastCheck := now } },
        handled.2 ++ fired.2)
    else
      ({ st with entry := some { fi with lastCheck := now } }, [])

/-- The `_set_file_task` closure queued by `set_file`: a fresh baseline
entry (note `'is_open': True`), or a cleanup when the path is gone. -/
def set_file_entry (obs : FileObs) (now : Nat) : Option WatchEntry :=
  if obs.present then
    some { hash := calculate_file_hash obs.content, mtime := obs.mtime,
           size := obs.size, isOpen := true, lastCheck := now }
  else none

/-- `force_reset_monitoring` followed by the queued `_set_file_task`
(which the background loop drains before the next detection pass): drop
the entry, clear the restoring flag and pending changes, re-add with a
fresh baseline. -/
def force_reset_monitoring (st : MonState) (obs : FileObs) (now : Nat) :
    MonState :=
  let st1 := { st with entry := none, restoring := false, pendingChange := false }
  match set_file_entry obs now with
  | some e => { st1 with entry := some e }
  | none => st1

/-! ## Supporting lemmas about the store -/

theorem blobMtimeLt_irrefl (a : Blob) : blobMtimeLt a a = false := by
  simp [blobMtimeLt]

theorem blobMtimeLt_asymm (a b : Blob) (h : blobMtimeLt a b = true) :
    blobMtimeLt b a = false := by
  simp only [blobMtimeLt, decide_eq_true_eq, decide_eq_false_iff_not] at h ⊢
  omega

theorem blobMtimeLt_negtrans (a b c : Blob)
    (hab : blobMtimeLt a b = false) (hbc : blobMtimeLt b c = false) :
    blobMtimeLt a c = false := by
  simp only [blobMtimeLt, decide_eq_false_iff_not] at hab hbc ⊢
  omega

theorem cacheKey_stem_true (p : FPath) (h : String) :
    keyHasStem (cacheKeyStem p) (cacheKey p h) = true := by
  have hk : cacheKey p h = cacheKeyStem p ++ h.data := by
    simp [cacheKey, cacheKeyStem, List.append_assoc]
  rw [hk]
  unfold keyHasStem
  exact List.isPrefixOf_iff_prefix.mpr ⟨h.data, rfl⟩

theorem cacheKey_inj_hash (p : FPath) (a b : String)
    (h : cacheKey p a = cacheKey p b) : a = b := by
  unfold cacheKey at h
  have h1 := List.append_cancel_left h
  have h2 : a.data = b.data := by
    injection h1
  cases a; cases b
  exact congrArg String.mk h2

theorem clear_missing_cache_no_stem (bm : BM) (p : FPath) (k : List Char)
    (hk : k ∈ (clear_missing_cache_for_file bm p).missingCache) :
    keyHasStem (cacheKeyStem p) k = false := by
  unfold clear_missing_cache_for_file at hk
  simp only [List.mem_filter, decide_eq_true_eq] at hk
  simpa using hk.2

theorem clear_missing_cache_blobs (bm : BM) (p : FPath) :
    (clear_missing_cache_for_file bm p).blobs = bm.blobs := rfl

/-- After `create_backup`, the fresh blob is present at the primary
location, it is the unique blob there with that hash, and the negative
cache has no entry for the pair — provided the new blob is strictly newer
than everything already in that directory and `max_backups ≥ 1`. -/
theorem create_backup_blob_survives (bm : BM) (p : FPath) (h : String)
    (content : List Nat) (tracked : TrackedFiles) (maxB now : Nat)
    (hmax : 1 ≤ maxB)
    (hfresh : ∀ b ∈ bm.blobs, b.dir = primaryDirOf p → b.mtime < now) :
    (⟨primaryDirOf p, h, now, gzipCompress content⟩ : Blob) ∈
        (create_backup bm p h content tracked maxB now).1.blobs ∧
    (∀ b ∈ (create_backup bm p h content tracked maxB now).1.blobs,
        b.dir = primaryDirOf p → b.hash = h →
        b = (⟨primaryDirOf p, h, now, gzipCompress content⟩ : Blob)) ∧
    cacheKey p h ∉ (create_backup bm p h content tracked maxB now).1.missingCache := by
  have hnb : (⟨primaryDirOf p, h, now, gzipCompress content⟩ : Blob).mtime = now := rfl
  generalize hnbdef : (⟨primaryDirOf p, h, now, gzipCompress content⟩ : Blob) = nb at *
  -- the store after the write step
  have hwrite : (writeBlob (clear_missing_cache_for_file bm p) p h content now).blobs =
      (bm.blobs.filter (fun b => ¬ (b.dir = primaryDirOf p ∧ b.hash = h))) ++ [nb] := by
    rw [← hnbdef]; rfl
  have hwcache :
      (writeBlob (clear_missing_cache_for_file bm p) p h content now).missingCache =
        (clear_missing_cache_for_file bm p).missingCache := rfl
  have hmem_old : ∀ b ∈ (bm.blobs.filter
      (fun b => ¬ (b.dir = primaryDirOf p ∧ b.hash = h))).filter
        (fun b => decide (b.dir = primaryDirOf p)),
      b ∈ bm.blobs ∧ b.dir = primaryDirOf p ∧ b.hash ≠ h := by
    intro b hb
    simp only [List.mem_filter, decide_eq_true_eq] at hb
    obtain ⟨⟨hbmem, hq⟩, hdir⟩ := hb
    refine ⟨hbmem, hdir, ?_⟩
    intro hh
    have hq' : ¬ (b.dir = primaryDirOf p ∧ b.hash = h) := by simpa using hq
    exact hq' ⟨hdir, hh⟩
  have hdir_split :
      ((bm.blobs.filter (fun b => ¬ (b.dir = primaryDirOf p ∧ b.hash = h))) ++
          [nb]).filter (fun b => decide (b.dir = primaryDirOf p)) =
        ((bm.blobs.filter (fun b => ¬ (b.dir = primaryDirOf p ∧ b.hash = h))).filter
          (fun b => decide (b.dir = primaryDirOf p))) ++ [nb] := by
    rw [List.filter_append]
    congr 1
    rw [← hnbdef]
    simp
  have hmem_dir : ∀ b ∈ ((bm.blobs.filter
      (fun b => ¬ (b.dir = primaryDirOf p ∧ b.hash = h))) ++ [nb]).filter
        (fun b => decide (b.dir = primaryDirOf p)),
      b = nb ∨ (b ∈ bm.blobs ∧ b.dir = primaryDirOf p ∧ b.hash ≠ h) := by
    intro b hb
    rw [hdir_split] at hb
    rcases List.mem_append.mp hb with hb' | hb'
    · exact Or.inr (hmem_old b hb')
    · have hbeq : b = nb := by simpa using hb'
      exact Or.inl hbeq
  -- abbreviate the directory listing
  generalize hdb : ((bm.blobs.filter
      (fun b => ¬ (b.dir = primaryDirOf p ∧ b.hash = h))) ++ [nb]).filter
        (fun b => decide (b.dir = primaryDirOf p)) = dirBlobs at hdir_split hmem_dir
  have hmtime_dir : ∀ b ∈ dirBlobs, b ≠ nb → b.mtime < now := by
    intro b hb hne
    rcases hmem_dir b hb with hbeq | ⟨hbm, hdir, -⟩
    · exact absurd hbeq hne
    · exact hfresh b hbm hdir
  have hnb_mem_dir : nb ∈ dirBlobs := by
    rw [hdir_split]
    exact List.mem_append.mpr (Or.inr (by simp))
  have hdir_ne : dirBlobs ≠ [] := fun hc => by
    rw [hc] at hnb_mem_dir
    cases hnb_mem_dir
  -- the sort
  obtain ⟨hd, tl, hsort_eq, hd_mem, hd_max⟩ :=
    sortByDesc_head_max blobMtimeLt blobMtimeLt_irrefl blobMtimeLt_asymm
      blobMtimeLt_negtrans dirBlobs hdir_ne
  have hhd : hd = nb := by
    by_contra hne
    have h1 := hmtime_dir hd hd_mem hne
    have h2 := hd_max nb hnb_mem_dir
    simp only [blobMtimeLt, decide_eq_false_iff_not] at h2
    omega
  rw [hhd] at hsort_eq
  -- nb appears exactly once, so it is not in the sorted tail
  have hcount : dirBlobs.count nb = 1 := by
    rw [hdir_split, List.count_append]
    have h0 : ((bm.blobs.filter
        (fun b => ¬ (b.dir = primaryDirOf p ∧ b.hash = h))).filter
          (fun b => decide (b.dir = primaryDirOf p))).count nb = 0 := by
      rw [List.count_eq_zero]
      intro hc
      obtain ⟨-, -, hne⟩ := hmem_old nb hc
      exact hne (by rw [← hnbdef])
    rw [h0]
    simp
  have hcount_sorted : (sortByDesc blobMtimeLt dirBlobs).count nb = 1 :=
    ((sortByDesc_perm blobMtimeLt dirBlobs).count_eq nb).trans hcount
  have hnb_not_tl : nb ∉ tl := by
    have h0 : tl.count nb = 0 := by
      rw [hsort_eq, List.count_cons_self] at hcount_sorted
      omega
    exact List.count_eq_zero.mp h0
  have hnot_del : nb ∉ (sortByDesc blobMtimeLt dirBlobs).drop maxB := by
    intro hc
    rw [hsort_eq] at hc
    have hdrop : List.drop maxB (nb :: tl) = List.drop (maxB - 1) tl := by
      cases maxB with
      | zero => omega
      | succ k => simp
    rw [hdrop] at hc
    exact hnb_not_tl (List.drop_subset _ _ hc)
  -- unfold create_backup into the cleanup step
  have hcb : create_backup bm p h content tracked maxB now =
      clean_old_backups (writeBlob (clear_missing_cache_for_file bm p) p h content now)
        p maxB tracked := rfl
  have hgab : get_all_backup_files
      (writeBlob (clear_missing_cache_for_file bm p) p h content now) p =
        sortByDesc blobMtimeLt dirBlobs := by
    unfold get_all_backup_files
    rw [hwrite, hdb]
  rw [hcb]
  unfold clean_old_backups backupsToDelete
  rw [hgab]
  by_cases hlen : (sortByDesc blobMtimeLt dirBlobs).length > maxB
  · rw [if_pos hlen]
    refine ⟨?_, ?_, ?_⟩
    · rw [hwrite]
      refine List.mem_filter.mpr ⟨?_, ?_⟩
      · exact List.mem_append.mpr (Or.inr (by simp))
      · simpa using hnot_del
    · intro b hb hbdir hbh
      have hb2 := (List.mem_filter.mp (by rw [hwrite] at hb; exact hb)).1
      rcases List.mem_append.mp hb2 with hb' | hb'
      · have hq' : ¬ b.dir = primaryDirOf p ∨ ¬ b.hash = h := by
          simpa using (List.mem_filter.mp hb').2
        rcases hq' with hq' | hq'
        · exact absurd hbdir hq'
        · exact absurd hbh hq'
      · simpa using hb'
    · intro hc
      rw [hwcache] at hc
      simp only [List.mem_append] at hc
      rcases hc with hc | hc
      · obtain ⟨b, hbdel, hbkey⟩ := List.mem_map.mp hc
        have hbhash : b.hash = h := cacheKey_inj_hash p _ _ hbkey
        have hbsorted : b ∈ sortByDesc blobMtimeLt dirBlobs :=
          List.drop_subset _ _ hbdel
        have hbdir2 : b ∈ dirBlobs :=
          (mem_sortByDesc blobMtimeLt dirBlobs b).mp hbsorted
        have hbnb : b = nb := by
          rcases hmem_dir b hbdir2 with hb | ⟨-, -, hne⟩
          · exact hb
          · exact absurd hbhash hne
        subst hbnb
        exact hnot_del hbdel
      · exact absurd (cacheKey_stem_true p h)
          (by simp [clear_missing_cache_no_stem bm p _ hc])
  · rw [if_neg hlen]
    refine ⟨?_, ?_, ?_⟩
    · rw [hwrite]
      exact List.mem_append.mpr (Or.inr (by simp))
    · intro b hb hbdir hbh
      rw [hwrite] at hb
      rcases List.mem_append.mp hb with hb' | hb'
      · have hq' : ¬ b.dir = primaryDirOf p ∨ ¬ b.hash = h := by
          simpa using (List.mem_filter.mp hb').2
        rcases hq' with hq' | hq'
        · exact absurd hbdir hq'
        · exact absurd hbh hq'
      · simpa using hb'
    · intro hc
      rw [hwcache] at hc
      exact absurd (cacheKey_stem_true p h)
        (by simp [clear_missing_cache_no_stem bm p _ hc])

/-- The commit-dialog path never emits the change callback. -/
theorem callback_not_in_handle (st : MonState) (obs : FileObs) (now : Nat) :
    MEvent.changeCallback ∉ (handle_file_closed st obs now).2 := by
  unfold handle_file_closed
  by_cases h0 : obs.present = true <;>
    by_cases h1 : st.restoring = true <;>
      by_cases h2 : st.isTracked = true ∧ now - st.lastDialogTime > dialogCooldown <;>
        simp [h0, h1, h2]

/-! ## The claims -/

/-- **C6** — `load_tracked_files` never throws: every persisted-file state
yields an `ok` result; a missing file yields the empty index with nothing
logged, and a corrupt file yields the empty index plus a logged error. -/
theorem C6_load_never_throws (f : PersistedFile) :
    (∃ idx logs, load_tracked_files f = .ok (idx, logs)) ∧
    (f = .missing → load_tracked_files f = .ok ([], [])) ∧
    (∀ raw, f = .corrupt raw →
      load_tracked_files f = .ok ([], ["Error: tracked_files.json is corrupted."])) := by
  cases f <;> simp [load_tracked_files, readIndexFile]

theorem C6_witness :
    load_tracked_files .missing = .ok ([], []) ∧
    load_tracked_files (.corrupt "not json") =
      .ok ([], ["Error: tracked_files.json is corrupted."]) :=
  ⟨(C6_load_never_throws .missing).2.1 rfl,
   (C6_load_never_throws (.corrupt "not json")).2.2 "not json" rfl⟩

/-- **C8 (counterexample)** — the claim "if a save fails, the previously
persisted index content is left unchanged" is false: `save_tracked_files`
truncates in place, so a failing `json.dump` leaves a corrupt file, and
the next `load_tracked_files` returns the empty index instead of the
previously stored one. -/
theorem C8_counterexample :
    (save_tracked_files []
        (PersistedFile.stored [("f", [("h", ⟨"2024-01-01 00:00:00", "m"⟩)])])
        true).2 ≠
      PersistedFile.stored [("f", [("h", ⟨"2024-01-01 00:00:00", "m"⟩)])] ∧
    load_tracked_files
        (save_tracked_files []
          (PersistedFile.stored [("f", [("h", ⟨"2024-01-01 00:00:00", "m"⟩)])])
          true).2 =
      .ok ([], ["Error: tracked_files.json is corrupted."]) := by
  constructor
  · intro hc
    cases hc
  · rfl

/-- **C8 (amended)** — every successful save rewrites the whole document
(the persisted state becomes exactly the serialized index), but the write
is not atomic: a save whose `json.dump` fails destroys the previous
content, leaving a truncated (corrupt) file. -/
theorem C8_save_rewrite (idx : TrackedFiles) (prev : PersistedFile) :
    save_tracked_files idx prev false = (.ok (), .stored idx) ∧
    (save_tracked_files idx prev true).2 = .corrupt "" :=
  ⟨rfl, rfl⟩

/-- **C2 (counterexample)** — the change callback is *not* gated on an
open→closed transition: with a watch entry already marked closed
(`isOpen = false`), a tick that sees a stable size, a new mtime and new
content still emits `callback(path, True)`. -/
theorem C2_counterexample :
    (check_for_changes_step
        { entry := some { hash := [0], mtime := 0, size := 1,
                          isOpen := false, lastCheck := 0 },
          restoring := false, isTracked := true,
          lastDialogTime := 0, pendingChange := false }
        { present := true, mtime := 5, size := 1, content := [1],
          closedProbe := true }
        10).2 = [MEvent.changeCallback] := by
  rfl

/-- A tick that observes stat data matching the stored entry emits no
events (and only updates `last_check`). -/
theorem check_step_quiet (st : MonState) (e : WatchEntry) (obs : FileObs)
    (now : Nat) (hentry : st.entry = some e) (hp : obs.present = true)
    (hsz : obs.size = e.size) (hmt : obs.mtime = e.mtime) :
    (check_for_changes_step st obs now).2 = [] := by
  unfold check_for_changes_step
  rw [hentry]
  simp [hp, hsz, hmt]

/-- After a tick that took the mtime-changed branch, the stored entry
carries the observed mtime and size. -/
theorem check_step_updates (st : MonState) (fi : WatchEntry) (obs : FileObs)
    (now : Nat) (hentry : st.entry = some fi) (hp : obs.present = true)
    (hsz : obs.size = fi.size) (hmt : obs.mtime ≠ fi.mtime) :
    ∃ e, (check_for_changes_step st obs now).1.entry = some e ∧
      e.mtime = obs.mtime ∧ e.size = obs.size := by
  have hmap : ((check_for_changes_step st obs now).1.entry.map
      (fun e => (e.mtime, e.size))) = some (obs.mtime, obs.size) := by
    by_cases hcond : fi.isOpen = true ∧ obs.closedProbe = true ∧
        calculate_file_hash obs.content ≠ fi.hash
    · simp [check_for_changes_step, handle_file_closed, hentry, hp, hsz, hmt, hcond]
      split_ifs <;> simp
    · by_cases hch : calculate_file_hash obs.content ≠ fi.hash <;>
        (simp [check_for_changes_step, handle_file_closed, hentry, hp, hsz,
          hmt, hcond, hch];
         try (split_ifs <;> simp [hentry]))
  cases he : (check_for_changes_step st obs now).1.entry with
  | none => rw [he] at hmap; cases hmap
  | some e =>
    rw [he] at hmap
    simp only [Option.map_some'] at hmap
    have h2 := Option.some.inj hmap
    exact ⟨e, rfl, (Prod.ext_iff.mp h2).1, (Prod.ext_iff.mp h2).2⟩

/-- **C2 (amended)** — on a present file, one tick emits the change
callback iff the size is stable, the mtime changed and the content hash
changed — regardless of the open/closed state (the open→closed condition
gates only the commit-dialog path); and it fires at most once per edit:
re-polling the same observation emits nothing. -/
theorem C2_callback_per_modification (st : MonState) (fi : WatchEntry)
    (obs : FileObs) (now now' : Nat)
    (hentry : st.entry = some fi) (hp : obs.present = true) :
    ((MEvent.changeCallback ∈ (check_for_changes_step st obs now).2) ↔
      (obs.size = fi.size ∧ obs.mtime ≠ fi.mtime ∧
        calculate_file_hash obs.content ≠ fi.hash)) ∧
    (obs.size = fi.size → obs.mtime ≠ fi.mtime →
      (check_for_changes_step (check_for_changes_step st obs now).1 obs now').2 = []) := by
  constructor
  · -- the callback-emission characterization
    unfold check_for_changes_step
    rw [hentry]
    by_cases hsz : obs.size ≠ fi.size
    · simp [hp, hsz]
    · have hsz' : obs.size = fi.size := by simpa using hsz
      by_cases hmt : obs.mtime ≠ fi.mtime
      · by_cases hch : calculate_file_hash obs.content ≠ fi.hash
        · simp [hp, hsz', hmt, hch]
        · have hch' : calculate_file_hash obs.content = fi.hash := by simpa using hch
          simp [hp, hsz', hmt, hch']
      · have hmt' : obs.mtime = fi.mtime := by simpa using hmt
        simp [hp, hsz', hmt']
  · -- once per edit cycle
    intro hsz hmt
    obtain ⟨e, hentry', hemt, hesz⟩ :=
      check_step_updates st fi obs now hentry hp hsz hmt
    exact check_step_quiet _ e obs now' hentry' hp hesz.symm hemt.symm

theorem C2_witness :
    (MEvent.changeCallback ∈
        (check_for_changes_step
          { entry := some { hash := [0], mtime := 0, size := 1,
                            isOpen := true, lastCheck := 0 },
            restoring := false, isTracked := false,
            lastDialogTime := 0, pendingChange := false }
          { present := true, mtime := 3, size := 1, content := [2],
            closedProbe := true } 7).2) ∧
    (check_for_changes_step
        (check_for_changes_step
          { entry := some { hash := [0], mtime := 0, size := 1,
                            isOpen := true, lastCheck := 0 },
            restoring := false, isTracked := false,
            lastDialogTime := 0, pendingChange := false }
          { present := true, mtime := 3, size := 1, content := [2],
            closedProbe := true } 7).1
        { present := true, mtime := 3, size := 1, content := [2],
          closedProbe := true } 8).2 = [] := by
  constructor
  · exact (C2_callback_per_modification _ _ _ 7 8 rfl rfl).1.mpr
      ⟨rfl, by decide, by decide⟩
  · exact (C2_callback_per_modification _ _ _ 7 8 rfl rfl).2 rfl (by decide)

/-- **C4** — (1) after a restore completes and `force_reset_monitoring`
runs (its queued `_set_file_task` giving a fresh baseline), the next poll
tick of the detector emits no event for the path, even though the current
content hash differs from the pre-restore baseline, and the restoring
flag is clear; (2) a close event caught while the path is flagged as
restoring is swallowed — no commit dialog — and the flag is cleared. -/
theorem C4_restore_reset_quiet :
    (∀ (st : MonState) (obs : FileObs) (now now' : Nat) (preHash : List Nat),
      obs.present = true → calculate_file_hash obs.content ≠ preHash →
      (check_for_changes_step (force_reset_monitoring st obs now) obs now').2 = [] ∧
      (force_reset_monitoring st obs now).restoring = false) ∧
    (∀ (st : MonState) (obs : FileObs) (now : Nat), st.restoring = true →
      (handle_file_closed st obs now).2 = [] ∧
      (handle_file_closed st obs now).1.restoring = false) := by
  constructor
  · intro st obs now now' preHash hp hdiff
    refine ⟨?_, by simp [force_reset_monitoring, set_file_entry, hp]⟩
    refine check_step_quiet _
      { hash := calculate_file_hash obs.content, mtime := obs.mtime,
        size := obs.size, isOpen := true, lastCheck := now } obs now' ?_ hp rfl rfl
    simp [force_reset_monitoring, set_file_entry, hp]
  · intro st obs now hr
    unfold handle_file_closed
    simp [hr]

theorem C4_witness :
    (check_for_changes_step
        (force_reset_monitoring
          { entry := some { hash := [0], mtime := 0, size := 1,
                            isOpen := false, lastCheck := 0 },
            restoring := true, isTracked := true,
            lastDialogTime := 0, pendingChange := true }
          { present := true, mtime := 9, size := 4, content := [7],
            closedProbe := true } 10)
        { present := true, mtime := 9, size := 4, content := [7],
          closedProbe := true } 11).2 = [] ∧
    (handle_file_closed
        { entry := some { hash := [0], mtime := 0, size := 1,
                          isOpen := true, lastCheck := 0 },
          restoring := true, isTracked := true,
          lastDialogTime := 0, pendingChange := false }
        { present := true, mtime := 9, size := 4, content := [7],
          closedProbe := true } 10).2 = [] := by
  constructor
  · exact ((C4_restore_reset_quiet.1 _ _ 10 11 [0] rfl (by decide)).1)
  · exact (C4_restore_reset_quiet.2 _
      { present := true, mtime := 9, size := 4, content := [7],
        closedProbe := true } 10 rfl).1

theorem find?_none_of_hasBlobAt_false (bm : BM) (d : BlobDir) (h : String)
    (hf : hasBlobAt bm d h = false) :
    bm.blobs.find? (fun b => decide (b.dir = d ∧ b.hash = h)) = none := by
  rw [List.find?_eq_none]
  intro b hb hc
  unfold hasBlobAt at hf
  rw [List.any_eq_false] at hf
  exact absurd hc (by simpa using hf b hb)

theorem find?_some_of_hasBlobAt (bm : BM) (d : BlobDir) (h : String)
    (hf : hasBlobAt bm d h = true) :
    ∃ b, bm.blobs.find? (fun b => decide (b.dir = d ∧ b.hash = h)) = some b ∧
      b ∈ bm.blobs ∧ b.dir = d ∧ b.hash = h := by
  unfold hasBlobAt at hf
  rw [List.any_eq_true] at hf
  obtain ⟨b, hb, hpb⟩ := hf
  have hsome : (bm.blobs.find? (fun b => decide (b.dir = d ∧ b.hash = h))).isSome := by
    rw [List.find?_isSome]
    exact ⟨b, hb, hpb⟩
  obtain ⟨c, hc⟩ := Option.isSome_iff_exists.mp hsome
  have hcmem := List.mem_of_find?_eq_some hc
  have hcp := List.find?_some hc
  simp only [decide_eq_true_eq] at hcp
  exact ⟨c, hc, hcmem, hcp.1, hcp.2⟩

/-- **C10** — the existence check consults the legacy (basename-only)
layout but the read paths do not: with a blob present only at the legacy
location, `check_backup_exists` answers `true` while both
`get_version_content` and `restore_file_version` raise. -/
theorem C10_legacy_asymmetry (bm : BM) (p : FPath) (h : String)
    (env : RestoreEnv)
    (hprim : hasBlobAt bm (primaryDirOf p) h = false)
    (hleg : hasBlobAt bm (legacyDirOf p) h = true)
    (hcache : cacheKey p h ∉ bm.missingCache)
    (hlock : env.targetLocked = false) :
    (check_backup_exists bm p h).1 = true ∧
    (get_version_content bm p h).1 = .error .ioError ∧
    (restore_file_version bm p h env).1.result = .error .ioError := by
  have hex : check_backup_exists bm p h = (true, bm) := by
    unfold check_backup_exists
    rw [if_neg hcache, hprim]
    simp [hleg]
  have hfind := find?_none_of_hasBlobAt_false bm (primaryDirOf p) h hprim
  have hfind' : List.find?
      (fun b => decide (b.dir = primaryDirOf p) && decide (b.hash = h))
      bm.blobs = none := by simpa using hfind
  refine ⟨by rw [hex], ?_, ?_⟩
  · unfold get_version_content
    rw [hex]
    simp [hfind']
  · unfold restore_file_version
    rw [hex]
    by_cases ho : isOfficeDoc p = true
    · simp only [hfind', ho]
      unfold restore_office_document restore_office_attempt
      simp [hlock, hfind']
    · simp [hfind', ho]

theorem check_false_of_absent (bm : BM) (p : FPath) (h : String)
    (hprim : hasBlobAt bm (primaryDirOf p) h = false)
    (hleg : hasBlobAt bm (legacyDirOf p) h = false) :
    (check_backup_exists bm p h).1 = false := by
  unfold check_backup_exists
  by_cases hc : cacheKey p h ∈ bm.missingCache
  · simp [hc]
  · simp [hc, hprim, hleg]

theorem check_true_of_primary (bm : BM) (p : FPath) (h : String)
    (hprim : hasBlobAt bm (primaryDirOf p) h = true)
    (hcache : cacheKey p h ∉ bm.missingCache) :
    check_backup_exists bm p h = (true, bm) := by
  unfold check_backup_exists
  rw [if_neg hcache, hprim]
  simp

theorem check_cases (bm : BM) (p : FPath) (h : String) :
    (check_backup_exists bm p h).1 = false ∨
      check_backup_exists bm p h = (true, bm) := by
  unfold check_backup_exists
  by_cases hc : cacheKey p h ∈ bm.missingCache
  · simp [hc]
  · by_cases h1 : hasBlobAt bm (primaryDirOf p) h = true
    · simp [hc, h1]
    · by_cases h2 : hasBlobAt bm (legacyDirOf p) h = true
      · simp [hc, h1, h2]
      · simp [hc, (by simpa using h1 : hasBlobAt bm (primaryDirOf p) h = false),
          (by simpa using h2 : hasBlobAt bm (legacyDirOf p) h = false)]

/-- The Office `except` handler always removes the temp file. -/
theorem office_temp_cleaned (c : Option (List Nat)) (env : RestoreEnv) :
    (restore_office_document c env).officeTempLeft = false := by
  rcases c with - | content <;>
    (unfold restore_office_document restore_office_attempt;
     split_ifs <;> simp)

/-- A successful Office restore swapped the decompressed bytes into
place. -/
theorem office_ok_content (c : List Nat) (env : RestoreEnv)
    (hok : (restore_office_document (some c) env).result = .ok ()) :
    (restore_office_document (some c) env).targetContent = some c := by
  unfold restore_office_document restore_office_attempt at hok ⊢
  split_ifs at hok ⊢ <;> simp_all

/-- An Office restore with a missing primary blob cannot succeed. -/
theorem office_none_fails (env : RestoreEnv) :
    (restore_office_document none env).result ≠ .ok () := by
  unfold restore_office_document restore_office_attempt
  split_ifs <;> simp

/-- **C7** — (1) a restore whose blob is absent from both layouts fails
with the "not found" error; (2) a restore onto a locked target fails with
the distinguishable permission error, not a generic I/O error; (3) for
Office-document extensions the restore never leaves its sibling temp file
behind, and on success the target holds the decompressed blob bytes. -/
theorem C7_restore_errors :
    (∀ (bm : BM) (p : FPath) (h : String) (env : RestoreEnv),
      hasBlobAt bm (primaryDirOf p) h = false →
      hasBlobAt bm (legacyDirOf p) h = false →
      (restore_file_version bm p h env).1.result = .error .notFound) ∧
    (∀ (bm : BM) (p : FPath) (h : String) (env : RestoreEnv),
      hasBlobAt bm (primaryDirOf p) h = true →
      cacheKey p h ∉ bm.missingCache →
      env.targetExists = true → env.targetLocked = true →
      (restore_file_version bm p h env).1.result = .error .permission) ∧
    (∀ (bm : BM) (p : FPath) (h : String) (env : RestoreEnv),
      isOfficeDoc p = true →
      (restore_file_version bm p h env).1.officeTempLeft = false ∧
      ((restore_file_version bm p h env).1.result = .ok () →
        ∃ b ∈ bm.blobs, b.dir = primaryDirOf p ∧ b.hash = h ∧
          (restore_file_version bm p h env).1.targetContent =
            some (gzipDecompress b.content))) := by
  refine ⟨?_, ?_, ?_⟩
  · intro bm p h env hprim hleg
    have hf := check_false_of_absent bm p h hprim hleg
    unfold restore_file_version
    simp [hf]
  · intro bm p h env hprim hcache hte htl
    have hex := check_true_of_primary bm p h hprim hcache
    obtain ⟨b, hfind, hbmem, hbdir, hbh⟩ :=
      find?_some_of_hasBlobAt bm (primaryDirOf p) h hprim
    have hfind' : List.find?
        (fun b => decide (b.dir = primaryDirOf p) && decide (b.hash = h))
        bm.blobs = some b := by simpa using hfind
    unfold restore_file_version
    rw [hex]
    by_cases ho : isOfficeDoc p = true
    · simp only [hfind', ho]
      unfold restore_office_document restore_office_attempt
      simp [hte, htl]
    · simp [hfind', ho, htl]
  · intro bm p h env ho
    rcases check_cases bm p h with hf | ht
    · constructor
      · unfold restore_file_version
        simp [hf]
      · intro hc
        unfold restore_file_version at hc
        simp [hf] at hc
    · cases hfind : bm.blobs.find?
          (fun b => decide (b.dir = primaryDirOf p ∧ b.hash = h)) with
      | none =>
        have hfind' : List.find?
            (fun b => decide (b.dir = primaryDirOf p) && decide (b.hash = h))
            bm.blobs = none := by simpa using hfind
        constructor
        · unfold restore_file_version
          rw [ht]
          simp only [hfind, ho, Option.map_none', if_true]
          exact office_temp_cleaned none env
        · intro hc
          unfold restore_file_version at hc
          rw [ht] at hc
          simp only [hfind, ho, Option.map_none', if_true] at hc
          exact (office_none_fails env hc).elim
      | some b =>
        have hfind' : List.find?
            (fun b => decide (b.dir = primaryDirOf p) && decide (b.hash = h))
            bm.blobs = some b := by simpa using hfind
        have hbmem := List.mem_of_find?_eq_some hfind
        have hbp := List.find?_some hfind
        simp only [decide_eq_true_eq] at hbp
        constructor
        · unfold restore_file_version
          rw [ht]
          simp only [hfind, ho, Option.map_some', if_true]
          exact office_temp_cleaned _ env
        · intro hc
          unfold restore_file_version at hc
          rw [ht] at hc
          simp only [hfind, ho, Option.map_some', if_true] at hc
          refine ⟨b, hbmem, hbp.1, hbp.2, ?_⟩
          unfold restore_file_version
          rw [ht]
          simp only [hfind, ho, Option.map_some', if_true]
          exact office_ok_content _ env hc

theorem C7_witness :
    (restore_file_version emptyBM ⟨"d", "r.docx"⟩ "H"
        ⟨true, false, false, false, false⟩).1.result = .error .notFound ∧
    (restore_file_version
        ⟨[⟨primaryDirOf ⟨"d", "r.docx"⟩, "H", 0, gzipCompress [5]⟩], []⟩
        ⟨"d", "r.docx"⟩ "H"
        ⟨true, true, false, false, false⟩).1.result = .error .permission ∧
    (restore_file_version
        ⟨[⟨primaryDirOf ⟨"d", "r.docx"⟩, "H", 0, gzipCompress [5]⟩], []⟩
        ⟨"d", "r.docx"⟩ "H"
        ⟨true, false, false, false, false⟩).1.officeTempLeft = false := by
  refine ⟨?_, ?_, ?_⟩
  · exact C7_restore_errors.1 _ _ _ _ (by decide) (by decide)
  · exact C7_restore_errors.2.1 _ _ _ _ (by decide) (by decide) rfl rfl
  · exact (C7_restore_errors.2.2 _ _ _
      ⟨true, false, false, false, false⟩ (by decide)).1

/-- **C5** — the negative cache: (1) a miss answers `false` and is
recorded; (2) a recorded miss keeps answering `false` straight from the
cache, whatever the blobs on disk; (3) as soon as `create_backup` writes
that exact `(path, hash)` pair, the check answers `true`; (4) the cache
clearing performed by `create_backup` removes every entry of that path. -/
theorem C5_negative_cache :
    (∀ (bm : BM) (p : FPath) (h : String),
      hasBlobAt bm (primaryDirOf p) h = false →
      hasBlobAt bm (legacyDirOf p) h = false →
      (check_backup_exists bm p h).1 = false ∧
      cacheKey p h ∈ (check_backup_exists bm p h).2.missingCache) ∧
    (∀ (bm : BM) (p : FPath) (h : String),
      cacheKey p h ∈ bm.missingCache →
      check_backup_exists bm p h = (false, bm)) ∧
    (∀ (bm : BM) (p : FPath) (h : String) (content : List Nat)
        (tracked : TrackedFiles) (maxB now : Nat),
      1 ≤ maxB →
      (∀ b ∈ bm.blobs, b.dir = primaryDirOf p → b.mtime < now) →
      (check_backup_exists (create_backup bm p h content tracked maxB now).1
        p h).1 = true) ∧
    (∀ (bm : BM) (p : FPath) (k : List Char),
      k ∈ (clear_missing_cache_for_file bm p).missingCache →
      keyHasStem (cacheKeyStem p) k = false) := by
  refine ⟨?_, ?_, ?_, ?_⟩
  · intro bm p h hprim hleg
    unfold check_backup_exists
    by_cases hc : cacheKey p h ∈ bm.missingCache
    · simp [hc]
    · simp [hc, hprim, hleg]
  · intro bm p h hc
    unfold check_backup_exists
    simp [hc]
  · intro bm p h content tracked maxB now hmax hfresh
    obtain ⟨hmem, -, hcache⟩ :=
      create_backup_blob_survives bm p h content tracked maxB now hmax hfresh
    have hprim : hasBlobAt (create_backup bm p h content tracked maxB now).1
        (primaryDirOf p) h = true := by
      unfold hasBlobAt
      rw [List.any_eq_true]
      exact ⟨_, hmem, by simp⟩
    rw [check_true_of_primary _ p h hprim hcache]
  · exact clear_missing_cache_no_stem

theorem C5_witness :
    (check_backup_exists emptyBM ⟨"d", "a.txt"⟩ "H").1 = false ∧
    check_backup_exists
        ⟨[⟨primaryDirOf ⟨"d", "a.txt"⟩, "H", 3, gzipCompress [1]⟩],
         [cacheKey ⟨"d", "a.txt"⟩ "H"]⟩
        ⟨"d", "a.txt"⟩ "H" =
      (false, ⟨[⟨primaryDirOf ⟨"d", "a.txt"⟩, "H", 3, gzipCompress [1]⟩],
               [cacheKey ⟨"d", "a.txt"⟩ "H"]⟩) ∧
    (check_backup_exists
        (create_backup emptyBM ⟨"d", "a.txt"⟩ "H" [1] [] 5 0).1
        ⟨"d", "a.txt"⟩ "H").1 = true := by
  refine ⟨?_, ?_, ?_⟩
  · exact (C5_negative_cache.1 emptyBM _ "H" (by decide) (by decide)).1
  · exact C5_negative_cache.2.1 _ _ "H" (by simp)
  · exact C5_negative_cache.2.2.1 emptyBM _ "H" [1] [] 5 0 (by decide)
      (by intro b hb; cases hb)

/-- **C3** — round trip: committing content `B` (hash `H`) and then
reading that version back returns exactly `B`; the gzip write is exactly
inverted by the read.  The freshness hypotheses say the new blob is newer
than everything in its directory and at least one backup is retained, so
eager retention does not evict the blob that was just written. -/
theorem C3_roundtrip (bm : BM) (p : FPath) (h : String) (content : List Nat)
    (tracked : TrackedFiles) (maxB now : Nat)
    (hmax : 1 ≤ maxB)
    (hfresh : ∀ b ∈ bm.blobs, b.dir = primaryDirOf p → b.mtime < now) :
    (get_version_content (create_backup bm p h content tracked maxB now).1
      p h).1 = .ok content := by
  obtain ⟨hmem, huniq, hcache⟩ :=
    create_backup_blob_survives bm p h content tracked maxB now hmax hfresh
  have hprim : hasBlobAt (create_backup bm p h content tracked maxB now).1
      (primaryDirOf p) h = true := by
    unfold hasBlobAt
    rw [List.any_eq_true]
    exact ⟨_, hmem, by simp⟩
  have hex := check_true_of_primary _ p h hprim hcache
  have hfind : (create_backup bm p h content tracked maxB now).1.blobs.find?
      (fun b => decide (b.dir = primaryDirOf p ∧ b.hash = h)) =
        some ⟨primaryDirOf p, h, now, gzipCompress content⟩ := by
    refine find?_eq_of_unique _ _ _ hmem (by simp) ?_
    intro b hb hpb
    simp only [decide_eq_true_eq] at hpb
    exact huniq b hb hpb.1 hpb.2
  have hfind' : List.find?
      (fun b => decide (b.dir = primaryDirOf p) && decide (b.hash = h))
      (create_backup bm p h content tracked maxB now).1.blobs =
        some ⟨primaryDirOf p, h, now, gzipCompress content⟩ := by
    simpa using hfind
  unfold get_version_content
  rw [hex]
  simp [hfind', gzip_roundtrip]

theorem filter_comm_blobs (l : List Blob) (f g : Blob → Bool) :
    (l.filter f).filter g = (l.filter g).filter f := by
  rw [List.filter_filter, List.filter_filter]
  apply List.filter_congr
  intro a _
  rw [Bool.and_comm]

/-- **C1** — retention is enforced eagerly by `create_backup`:
(1) after any `create_backup`, at most `max_backups` blobs remain in the
file's primary version directory (everything beyond the newest
`max_backups` in the sorted listing was deleted);
(2) with `max_backups = 2`, three sequential commits `H1, H2, H3` (in
that order, distinct hashes) leave `exists(path, H1) = false`,
`exists(path, H2) = true`, `exists(path, H3) = true`, and `H1`'s
version record is removed from the caller-supplied index. -/
theorem C1_retention :
    (∀ (bm : BM) (p : FPath) (h : String) (content : List Nat)
        (tracked : TrackedFiles) (maxB now : Nat),
      ((create_backup bm p h content tracked maxB now).1.blobs.filter
        (fun b => decide (b.dir = primaryDirOf p))).length ≤ maxB) ∧
    (∀ (p : FPath) (H1 H2 H3 : String) (c1 c2 c3 : List Nat)
        (i1 i2 i3 : VersionInfo),
      H1 ≠ H2 → H1 ≠ H3 → H2 ≠ H3 →
      (check_backup_exists
          (create_backup (create_backup (create_backup emptyBM
              p H1 c1 [] 2 0).1
            p H2 c2 [] 2 1).1
            p H3 c3 [(pathStr p, [(H1, i1), (H2, i2), (H3, i3)])] 2 2).1
          p H1).1 = false ∧
      (check_backup_exists
          (create_backup (create_backup (create_backup emptyBM
              p H1 c1 [] 2 0).1
            p H2 c2 [] 2 1).1
            p H3 c3 [(pathStr p, [(H1, i1), (H2, i2), (H3, i3)])] 2 2).1
          p H2).1 = true ∧
      (check_backup_exists
          (create_backup (create_backup (create_backup emptyBM
              p H1 c1 [] 2 0).1
            p H2 c2 [] 2 1).1
            p H3 c3 [(pathStr p, [(H1, i1), (H2, i2), (H3, i3)])] 2 2).1
          p H3).1 = true ∧
      (create_backup (create_backup (create_backup emptyBM
          p H1 c1 [] 2 0).1
        p H2 c2 [] 2 1).1
        p H3 c3 [(pathStr p, [(H1, i1), (H2, i2), (H3, i3)])] 2 2).2 =
        [(pathStr p, [(H2, i2), (H3, i3)])]) := by
  constructor
  · -- (1) the bound
    intro bm p h content tracked maxB now
    have hcb : create_backup bm p h content tracked maxB now =
        clean_old_backups (writeBlob (clear_missing_cache_for_file bm p)
          p h content now) p maxB tracked := rfl
    rw [hcb]
    generalize writeBlob (clear_missing_cache_for_file bm p) p h content now = bm2
    unfold clean_old_backups backupsToDelete
    by_cases hlen : (get_all_backup_files bm2 p).length > maxB
    · rw [if_pos hlen]
      have hcomm : ((bm2.blobs.filter
          (fun b => decide (¬ b ∈ (get_all_backup_files bm2 p).drop maxB))).filter
            (fun b => decide (b.dir = primaryDirOf p))) =
          ((bm2.blobs.filter (fun b => decide (b.dir = primaryDirOf p))).filter
            (fun b => decide (¬ b ∈ (get_all_backup_files bm2 p).drop maxB))) :=
        filter_comm_blobs _ _ _
      rw [hcomm]
      have hperm : List.Perm
          ((bm2.blobs.filter (fun b => decide (b.dir = primaryDirOf p))).filter
            (fun b => decide (¬ b ∈ (get_all_backup_files bm2 p).drop maxB)))
          ((get_all_backup_files bm2 p).filter
            (fun b => decide (¬ b ∈ (get_all_backup_files bm2 p).drop maxB))) :=
        (List.Perm.filter _ (sortByDesc_perm blobMtimeLt _).symm)
      rw [hperm.length_eq]
      have hsplit : get_all_backup_files bm2 p =
          (get_all_backup_files bm2 p).take maxB ++
            (get_all_backup_files bm2 p).drop maxB :=
        (List.take_append_drop maxB _).symm
      calc ((get_all_backup_files bm2 p).filter
              (fun b => decide (¬ b ∈ (get_all_backup_files bm2 p).drop maxB))).length
          = (((get_all_backup_files bm2 p).take maxB ++
              (get_all_backup_files bm2 p).drop maxB).filter
              (fun b => decide (¬ b ∈ (get_all_backup_files bm2 p).drop maxB))).length := by
            rw [← hsplit]
        _ = (((get_all_backup_files bm2 p).take maxB).filter
              (fun b => decide (¬ b ∈ (get_all_backup_files bm2 p).drop maxB))).length +
            (((get_all_backup_files bm2 p).drop maxB).filter
              (fun b => decide (¬ b ∈ (get_all_backup_files bm2 p).drop maxB))).length := by
            rw [List.filter_append, List.length_append]
        _ = (((get_all_backup_files bm2 p).take maxB).filter
              (fun b => decide (¬ b ∈ (get_all_backup_files bm2 p).drop maxB))).length := by
            have hnil : ((get_all_backup_files bm2 p).drop maxB).filter
                (fun b => decide (¬ b ∈ (get_all_backup_files bm2 p).drop maxB)) = [] := by
              rw [List.filter_eq_nil_iff]
              intro b hb
              simp [hb]
            rw [hnil]
            simp
        _ ≤ ((get_all_backup_files bm2 p).take maxB).length :=
            List.length_filter_le _ _
        _ ≤ maxB := by
            rw [List.length_take]
            exact Nat.min_le_left _ _
    · rw [if_neg hlen]
      have hgoal : (bm2.blobs.filter
          (fun b => decide (b.dir = primaryDirOf p))).length ≤ maxB := by
        have hlen2 : (bm2.blobs.filter
            (fun b => decide (b.dir = primaryDirOf p))).length =
              (get_all_backup_files bm2 p).length :=
          (sortByDesc_perm blobMtimeLt _).length_eq.symm
        omega
      exact hgoal
  · -- (2) the three-commit scenario
    intro p H1 H2 H3 c1 c2 c3 i1 i2 i3 h12 h13 h23
    have e1 : (create_backup emptyBM p H1 c1 [] 2 0).1 =
        ⟨[⟨primaryDirOf p, H1, 0, gzipCompress c1⟩], []⟩ := by
      simp [create_backup, clean_old_backups, backupsToDelete,
        get_all_backup_files, writeBlob, clear_missing_cache_for_file,
        emptyBM, sortByDesc, insertBy]
    have e2 : (create_backup
        (⟨[⟨primaryDirOf p, H1, 0, gzipCompress c1⟩], []⟩ : BM)
        p H2 c2 [] 2 1).1 =
        ⟨[⟨primaryDirOf p, H1, 0, gzipCompress c1⟩,
          ⟨primaryDirOf p, H2, 1, gzipCompress c2⟩], []⟩ := by
      simp [create_backup, clean_old_backups, backupsToDelete,
        get_all_backup_files, writeBlob, clear_missing_cache_for_file,
        sortByDesc, insertBy, blobMtimeLt, h12, Ne.symm h12]
    have e3 : create_backup
        (⟨[⟨primaryDirOf p, H1, 0, gzipCompress c1⟩,
           ⟨primaryDirOf p, H2, 1, gzipCompress c2⟩], []⟩ : BM)
        p H3 c3 [(pathStr p, [(H1, i1), (H2, i2), (H3, i3)])] 2 2 =
        (⟨[⟨primaryDirOf p, H2, 1, gzipCompress c2⟩,
           ⟨primaryDirOf p, H3, 2, gzipCompress c3⟩], [cacheKey p H1]⟩,
         [(pathStr p, [(H2, i2), (H3, i3)])]) := by
      simp [create_backup, clean_old_backups, backupsToDelete,
        get_all_backup_files, writeBlob, clear_missing_cache_for_file,
        sortByDesc, insertBy, blobMtimeLt, removeVersions,
        h12, h13, h23, Ne.symm h12, Ne.symm h13, Ne.symm h23]
    rw [e1, e2, e3]
    have hk2 : cacheKey p H2 ≠ cacheKey p H1 := fun hc =>
      h12 (cacheKey_inj_hash p H2 H1 hc).symm
    have hk3 : cacheKey p H3 ≠ cacheKey p H1 := fun hc =>
      h13 (cacheKey_inj_hash p H3 H1 hc).symm
    refine ⟨?_, ?_, ?_, rfl⟩
    · simp [check_backup_exists]
    · simp [check_backup_exists, hk2, hasBlobAt]
    · simp [check_backup_exists, hk3, hasBlobAt]

theorem C1_witness :
    (check_backup_exists
        (create_backup (create_backup (create_backup emptyBM
            ⟨"d", "a.txt"⟩ "h1" [1] [] 2 0).1
          ⟨"d", "a.txt"⟩ "h2" [2] [] 2 1).1
          ⟨"d", "a.txt"⟩ "h3" [3]
          [(pathStr ⟨"d", "a.txt"⟩,
            [("h1", ⟨"2024-01-01 00:00:00", "m1"⟩),
             ("h2", ⟨"2024-01-02 00:00:00", "m2"⟩),
             ("h3", ⟨"2024-01-03 00:00:00", "m3"⟩)])] 2 2).1
        ⟨"d", "a.txt"⟩ "h1").1 = false ∧
    (check_backup_exists
        (create_backup (create_backup (create_backup emptyBM
            ⟨"d", "a.txt"⟩ "h1" [1] [] 2 0).1
          ⟨"d", "a.txt"⟩ "h2" [2] [] 2 1).1
          ⟨"d", "a.txt"⟩ "h3" [3]
          [(pathStr ⟨"d", "a.txt"⟩,
            [("h1", ⟨"2024-01-01 00:00:00", "m1"⟩),
             ("h2", ⟨"2024-01-02 00:00:00", "m2"⟩),
             ("h3", ⟨"2024-01-03 00:00:00", "m3"⟩)])] 2 2).1
        ⟨"d", "a.txt"⟩ "h2").1 = true := by
  have hs := C1_retention.2 ⟨"d", "a.txt"⟩ "h1" "h2" "h3" [1] [2] [3]
    ⟨"2024-01-01 00:00:00", "m1"⟩ ⟨"2024-01-02 00:00:00", "m2"⟩
    ⟨"2024-01-03 00:00:00", "m3"⟩ (by decide) (by decide) (by decide)
  exact ⟨hs.1, hs.2.1⟩

theorem C3_witness :
    (get_version_content
        (create_backup emptyBM ⟨"d", "a.txt"⟩ "H" [1, 2, 3] [] 5 0).1
        ⟨"d", "a.txt"⟩ "H").1 = .ok [1, 2, 3] :=
  C3_roundtrip emptyBM ⟨"d", "a.txt"⟩ "H" [1, 2, 3] [] 5 0 (by decide)
    (by intro b hb; cases hb)

theorem C10_witness :
    (check_backup_exists
        ⟨[⟨legacyDirOf ⟨"d", "a.txt"⟩, "HX", 0, gzipCompress [9]⟩], []⟩
        ⟨"d", "a.txt"⟩ "HX").1 = true ∧
    (get_version_content
        ⟨[⟨legacyDirOf ⟨"d", "a.txt"⟩, "HX", 0, gzipCompress [9]⟩], []⟩
        ⟨"d", "a.txt"⟩ "HX").1 = .error .ioError ∧
    (restore_file_version
        ⟨[⟨legacyDirOf ⟨"d", "a.txt"⟩, "HX", 0, gzipCompress [9]⟩], []⟩
        ⟨"d", "a.txt"⟩ "HX"
        ⟨true, false, false, false, false⟩).1.result = .error .ioError :=
  C10_legacy_asymmetry _ _ _ _ (by decide) (by decide) (by decide) rfl

theorem renderTs_data (t : TsTuple) : (renderTs t).data = renderTsChars t := rfl

/-- **C9** — the two "most recent version" selections: on every non-empty
version map whose timestamps are all in the canonical
`YYYY-MM-DD HH:MM:SS` format, the parsed-datetime selection of
`has_file_changed` and the raw-string selection of `_get_last_commit`
select a version with the same timestamp; and there exists a version map
with a non-canonically formatted timestamp on which they disagree. -/
theorem C9_timestamp_selections :
    (∀ versions : Versions, versions ≠ [] →
      (∀ v ∈ versions, isCanonicalTs v.2.timestamp = true) →
      ∃ sp ss, latestVersionByParsed versions = some sp ∧
        getLastCommitSel versions = some ss ∧ sp.2.timestamp = ss.1) ∧
    (∃ versions : Versions, ∃ sp ss,
      latestVersionByParsed versions = some sp ∧
      getLastCommitSel versions = some ss ∧ sp.2.timestamp ≠ ss.1) := by
  constructor
  · intro versions hne hcanon
    obtain ⟨ks, hks⟩ := keyVersions_isSome_of_canonical versions hcanon
    obtain ⟨hmap, hparse⟩ := keyVersions_spec versions ks hks
    have hksne : ks ≠ [] := by
      intro hc
      rw [hc] at hmap
      simp only [List.map_nil] at hmap
      exact hne hmap.symm
    obtain ⟨hd, tl, hsort, hdmem, hdmax⟩ :=
      sortByDesc_head_max (fun a b => tsLt a.1 b.1)
        (fun a => tsLt_irrefl a.1)
        (fun a b hab => by exact tsLt_asymm a.1 b.1 hab)
        (fun a b c h1 h2 => by exact tsLt_negtrans a.1 b.1 c.1 h1 h2) ks hksne
    have hlvp : latestVersionByParsed versions = some hd.2 := by
      unfold latestVersionByParsed
      rw [hks, Option.some_bind, hsort]
      rfl
    cases versions with
    | nil => exact absurd rfl hne
    | cons v0 rest =>
      obtain ⟨t, i, hfold, hsrc, hge0, hmaxr⟩ :=
        foldl_lastCommit rest v0.2.timestamp v0.2
      have hsel : getLastCommitSel (v0 :: rest) = some (t, i) := by
        unfold getLastCommitSel
        rw [List.foldl_cons]
        have hstep0 : lastCommitStep none v0 = some (v0.2.timestamp, v0.2) := rfl
        rw [hstep0]
        exact hfold
      have hsrc2 : ∃ u ∈ (v0 :: rest), t = u.2.timestamp := by
        rcases hsrc with ⟨rfl, -⟩ | ⟨u, hu, rfl, -⟩
        · exact ⟨v0, List.mem_cons_self _ _, rfl⟩
        · exact ⟨u, List.mem_cons_of_mem _ hu, rfl⟩
      have hmax2 : ∀ u ∈ (v0 :: rest), pyStrLt t.data u.2.timestamp.data = false := by
        intro u hu
        rcases List.mem_cons.mp hu with rfl | hu2
        · exact hge0
        · exact hmaxr u hu2
      refine ⟨hd.2, (t, i), hlvp, hsel, ?_⟩
      obtain ⟨u, humem, htu⟩ := hsrc2
      have hhdmem : hd.2 ∈ (v0 :: rest) := by
        have hmm : hd.2 ∈ ks.map (·.2) := List.mem_map_of_mem _ hdmem
        rwa [hmap] at hmm
      obtain ⟨thd, hphd, hrhd⟩ := isCanonicalTs_iff.mp (hcanon hd.2 hhdmem)
      have hthd : thd = hd.1 := by
        rw [hparse hd hdmem] at hphd
        exact (Option.some.inj hphd).symm
      rw [hthd] at hrhd
      have humem2 : u ∈ ks.map (·.2) := by
        rw [hmap]
        exact humem
      obtain ⟨ku, hkumem, hku2⟩ := List.mem_map.mp humem2
      obtain ⟨tu, hpu, hru⟩ := isCanonicalTs_iff.mp (hcanon u humem)
      have htu2 : tu = ku.1 := by
        have hpk := hparse ku hkumem
        rw [hku2] at hpk
        rw [hpk] at hpu
        exact (Option.some.inj hpu).symm
      rw [htu2] at hru
      have vhd : validDateTime hd.1 = true := parseTimestamp_valid (hparse hd hdmem)
      have vku : validDateTime ku.1 = true := by
        have hpk := hparse ku hkumem
        rw [hku2] at hpk
        exact parseTimestamp_valid hpk
      have hlt1 : tsLt hd.1 ku.1 = false := hdmax ku hkumem
      have hlt2 : tsLt ku.1 hd.1 = false := by
        have h9 := hmax2 hd.2 hhdmem
        rw [htu, ← hru, ← hrhd, renderTs_data, renderTs_data] at h9
        rwa [pyStrLt_renderTs ku.1 hd.1 vku vhd] at h9
      have heq := tsLt_conn hd.1 ku.1 hlt1 hlt2
      rw [← hrhd, heq, hru]
      exact htu.symm
  · refine ⟨[("h1", ⟨"2024-10-01 00:00:00", "m1"⟩),
             ("h2", ⟨"2024-2-01 00:00:00", "m2"⟩)],
      ("h1", ⟨"2024-10-01 00:00:00", "m1"⟩),
      ("2024-2-01 00:00:00", ⟨"2024-2-01 00:00:00", "m2"⟩), ?_, ?_, ?_⟩
    · rfl
    · rfl
    · decide

theorem C9_witness :
    ([("ha", ⟨"2024-01-01 00:00:00", "m1"⟩)] : Versions) ≠ [] ∧
    ∃ sp ss,
      latestVersionByParsed [("ha", ⟨"2024-01-01 00:00:00", "m1"⟩)] = some sp ∧
      getLastCommitSel [("ha", ⟨"2024-01-01 00:00:00", "m1"⟩)] = some ss ∧
      sp.2.timestamp = ss.1 := by
  constructor
  · decide
  · exact C9_timestamp_selections.1 _ (by decide) (by decide)

end Inveni
